import Mathlib

/-
Shallow embedding of the graph-algorithm core of fossillogic/fossil-algo
(file src/code/logic/ml.c, graph section): the graph representation,
BFS (graph_bfs), DFS (dfs_visit / graph_dfs), Dijkstra (graph_dijkstra),
and the public dispatch surface (fossil_algorithm_graph_exec,
fossil_algorithm_graph_supported, fossil_algorithm_graph_requires_weights).

Modelling conventions:
* C `double` edge weights and tentative distances are idealized as rationals;
  the DBL_MAX sentinel used for "infinite distance" is modelled as `none` in
  `Option ℚ` (so `dist[i] < dist[v]` becomes `distLt`, where the sentinel
  compares strictly above every finite value and not below itself).
* Nullable C pointers (`fossil_graph_t *`, `const char *`, the visitor
  function pointer, the adjacency array) are modelled with `Option`.
* C arrays indexed by node id (`visited`, `dist`, `used`) are modelled as
  total functions `Nat → _`; writes are functional updates (`fupd`).
* The unbounded C loops (the BFS while loop, the Dijkstra for(;;) loop, the
  DFS recursion) are given explicit fuel; the fuel chosen in the top-level
  entry points is proved sufficient under the data-model invariant that all
  edge destinations are in range.
* Visitor callbacks are pure `Nat → Bool`; the sequence of visitor
  invocations is exposed as a `trace` observation, and the final contents of
  the BFS queue array as `queue`.
-/

/-- Functional update of a total function at one point (models an array write). -/
def fupd {α : Type} (f : Nat → α) (i : Nat) (a : α) : Nat → α :=
  fun x => if x = i then a else f x

/-- One adjacency-list cell: `struct fossil_graph_edge_node` (`to`, `weight`). -/
structure fossil_graph_edge_node where
  «to» : Nat
  weight : ℚ
deriving DecidableEq

/-- `struct fossil_graph`: node count, flags, and the adjacency array
(`adj` may be NULL, hence `Option`; each slot is the edge list of a node). -/
structure fossil_graph where
  node_count : Nat
  directed : Bool
  weighted : Bool
  adj : Option (List (List fossil_graph_edge_node))

/-- Edge list of node `v`: `adj ? adj[v] : NULL` (the defensive NULL check in
the C code); a missing slot is the empty list. -/
def adjOf (g : fossil_graph) (v : Nat) : List fossil_graph_edge_node :=
  match g.adj with
  | none => []
  | some l => l.getD v []

/-- Data-model invariant (spec §3): every edge destination is in
`[0, node_count)`. -/
def EdgesInRange (g : fossil_graph) : Prop :=
  ∀ v, v < g.node_count → ∀ e ∈ adjOf g v, e.«to» < g.node_count

/-- All edge weights reachable from valid nodes are non-negative. -/
def NonnegWeights (g : fossil_graph) : Prop :=
  ∀ v, v < g.node_count → ∀ e ∈ adjOf g v, 0 ≤ e.weight

instance (g : fossil_graph) : Decidable (EdgesInRange g) :=
  decidable_of_iff
    (∀ v, v < g.node_count → ∀ e ∈ adjOf g v, e.«to» < g.node_count) Iff.rfl

instance (g : fossil_graph) : Decidable (NonnegWeights g) :=
  decidable_of_iff
    (∀ v, v < g.node_count → ∀ e ∈ adjOf g v, 0 ≤ e.weight) Iff.rfl

/-- One directed adjacency step: there is an edge from `a` to `b`. -/
def stepRel (g : fossil_graph) (a b : Nat) : Prop :=
  ∃ e ∈ adjOf g a, e.«to» = b

/-- `b` is reachable from `a` along directed adjacency edges. -/
def Reachable (g : fossil_graph) (a b : Nat) : Prop :=
  Relation.ReflTransGen (stepRel g) a b

/-- A visitor that never requests early termination (`NULL` visitor, or one
that always returns true). -/
def AlwaysContinue (visit : Option (Nat → Bool)) : Prop :=
  ∀ f, visit = some f → ∀ v, f v = true

/-- Result of a dispatched algorithm call: the C status code plus the
observable side effects (visitor invocation trace, final visited array,
final BFS queue contents). -/
structure TravOut where
  status : Int
  trace : List Nat
  visited : Nat → Bool
  queue : List Nat

/-- Output of an early error path: status only, no visitor calls, no state. -/
def errOut (code : Int) : TravOut :=
  { status := code, trace := [], visited := fun _ => false, queue := [] }

-- ======================================================
-- BFS (graph_bfs)
-- ======================================================

/-- Loop state of `graph_bfs`: visited array, queue array contents written so
far (`tail` is `queue.length`), read index `head`, and the visitor trace. -/
structure BfsState where
  visited : Nat → Bool
  queue : List Nat
  head : Nat
  trace : List Nat

/-- The inner edge loop of `graph_bfs`: for each edge of the dequeued node,
if the destination is unvisited, mark it visited and enqueue it. -/
def bfsExpand (s : BfsState) : List fossil_graph_edge_node → BfsState
  | [] => s
  | e :: rest =>
    if s.visited e.«to» then bfsExpand s rest
    else bfsExpand { s with visited := fupd s.visited e.«to» true,
                            queue := s.queue ++ [e.«to»] } rest

/-- The `while (head < tail)` loop of `graph_bfs`, with explicit fuel.
Dequeue `queue[head]`, invoke the visitor (break on false), then expand the
dequeued node's edges. -/
def bfsLoop (g : fossil_graph) (visit : Option (Nat → Bool)) :
    Nat → BfsState → BfsState
  | 0, s => s
  | fuel + 1, s =>
    if h : s.head < s.queue.length then
      let v := s.queue.get ⟨s.head, h⟩
      match visit with
      | some f =>
        if f v then
          bfsLoop g visit fuel
            (bfsExpand { s with head := s.head + 1, trace := s.trace ++ [v] }
              (adjOf g v))
        else
          { s with head := s.head + 1, trace := s.trace ++ [v] }
      | none =>
        bfsLoop g visit fuel
          (bfsExpand { s with head := s.head + 1 } (adjOf g v))
    else s

/-- Initial BFS state: `visited[start] = true; queue[tail++] = start`. -/
def bfsInit (start : Nat) : BfsState :=
  { visited := fupd (fun _ => false) start true,
    queue := [start], head := 0, trace := [] }

/-- `graph_bfs` from ml.c: validation, then the queue-driven loop;
returns 0 after loop exit (exhaustion or visitor break). -/
def graph_bfs (graph : Option fossil_graph) (start : Nat)
    (visit : Option (Nat → Bool)) : TravOut :=
  match graph with
  | none => errOut (-2)
  | some g =>
    if g.node_count ≤ start then errOut (-2)
    else if g.node_count = 0 then errOut (-2)
    else
      let s := bfsLoop g visit (g.node_count + 1) (bfsInit start)
      { status := 0, trace := s.trace, visited := s.visited, queue := s.queue }

-- ======================================================
-- DFS (dfs_visit / graph_dfs)
-- ======================================================

/-- DFS state: visited array and visitor trace. -/
structure DfsState where
  visited : Nat → Bool
  trace : List Nat

mutual
/-- `dfs_visit` from ml.c, with fuel bounding the recursion depth.
Marks `v` visited, invokes the visitor (returning false propagates the
early stop), then recurses into each unvisited edge destination in order.
`dfsEdgesGo` is the edge-list loop. Out of fuel returns `(true, s)`; the
entry point's fuel is proved sufficient under the in-range invariant. -/
def dfs_visit (g : fossil_graph) (visit : Option (Nat → Bool)) :
    Nat → Nat → DfsState → Bool × DfsState
  | 0, _, s => (true, s)
  | fuel + 1, v, s =>
    let s1 : DfsState := { s with visited := fupd s.visited v true }
    match visit with
    | some f =>
      let s2 : DfsState := { s1 with trace := s1.trace ++ [v] }
      if f v then dfsEdgesGo g visit fuel (adjOf g v) s2
      else (false, s2)
    | none => dfsEdgesGo g visit fuel (adjOf g v) s1
termination_by fuel v s => (fuel, 0)

/-- The `for (e = edges; e; e = e->next)` loop of `dfs_visit`. -/
def dfsEdgesGo (g : fossil_graph) (visit : Option (Nat → Bool)) :
    Nat → List fossil_graph_edge_node → DfsState → Bool × DfsState
  | _, [], s => (true, s)
  | fuel, e :: rest, s =>
    if s.visited e.«to» then dfsEdgesGo g visit fuel rest s
    else
      match dfs_visit g visit fuel e.«to» s with
      | (false, s') => (false, s')
      | (true, s') => dfsEdgesGo g visit fuel rest s'
termination_by fuel es s => (fuel, es.length + 1)
end

/-- `graph_dfs` from ml.c: validation, then the recursive walk; the walk's
boolean result is discarded and 0 is returned. -/
def graph_dfs (graph : Option fossil_graph) (start : Nat)
    (visit : Option (Nat → Bool)) : TravOut :=
  match graph with
  | none => errOut (-2)
  | some g =>
    if g.node_count ≤ start then errOut (-2)
    else if g.node_count = 0 then errOut (-2)
    else
      let r := dfs_visit g visit g.node_count start
        { visited := fun _ => false, trace := [] }
      { status := 0, trace := r.2.trace, visited := r.2.visited, queue := [] }

-- ======================================================
-- Dijkstra (graph_dijkstra)
-- ======================================================

/-- The C comparison `dist[i] < dist[v]` on doubles, with `none` standing for
the DBL_MAX sentinel: every finite value is strictly below the sentinel, and
the sentinel is not strictly below anything. -/
def distLt : Option ℚ → Option ℚ → Bool
  | some a, some b => decide (a < b)
  | some _, none => true
  | none, _ => false

/-- `dist[v] + e->weight`; the sentinel absorbs (this case never arises: the
loop breaks before relaxing a node whose distance is the sentinel). -/
def optAdd : Option ℚ → ℚ → Option ℚ
  | some a, w => some (a + w)
  | none, _ => none

/-- Interpret a tentative distance in `WithTop ℚ` (sentinel = ⊤), the order
used by the correctness arguments. -/
def toW : Option ℚ → WithTop ℚ
  | some a => (a : WithTop ℚ)
  | none => ⊤

/-- Dijkstra loop state: tentative distances and the finalized markers. -/
structure DijkstraState where
  dist : Nat → Option ℚ
  used : Nat → Bool

/-- The linear scan `for i: if (!used[i] && (v == UINT64_MAX || dist[i] <
dist[v])) v = i;` over a list of candidate indices, with `none` standing for
the `UINT64_MAX` "no candidate yet" sentinel. -/
def selectScan (dist : Nat → Option ℚ) (used : Nat → Bool) :
    List Nat → Option Nat → Option Nat
  | [], acc => acc
  | i :: rest, acc =>
    let acc' := match acc with
      | none => if used i then none else some i
      | some v => if !used i && distLt (dist i) (dist v) then some i else some v
    selectScan dist used rest acc'

/-- Selection of the unfinalized node with minimum tentative distance. -/
def selectMin (dist : Nat → Option ℚ) (used : Nat → Bool) (n : Nat) : Option Nat :=
  selectScan dist used (List.range n) none

/-- The inner relaxation loop: for each edge of the selected node `v`,
`alt = dist[v] + e->weight; if (alt < dist[e->to]) dist[e->to] = alt;`.
Note the C code does not test `used[e->to]` here: finalized destinations are
subject to the same comparison. -/
def relaxEdges (v : Nat) : List fossil_graph_edge_node →
    (Nat → Option ℚ) → (Nat → Option ℚ)
  | [], d => d
  | e :: rest, d =>
    let alt := optAdd (d v) e.weight
    relaxEdges v rest (if distLt alt (d e.«to») then fupd d e.«to» alt else d)

/-- One iteration of the `for (;;)` loop of `graph_dijkstra`: select the
minimum unfinalized node; break (`none`) if there is none or its distance is
the sentinel; otherwise finalize it and relax its outgoing edges. -/
def dijkstraStep (g : fossil_graph) (s : DijkstraState) : Option DijkstraState :=
  match selectMin s.dist s.used g.node_count with
  | none => none
  | some v =>
    match s.dist v with
    | none => none
    | some _ =>
      some { dist := relaxEdges v (adjOf g v) s.dist,
             used := fupd s.used v true }

/-- The `for (;;)` loop, with explicit fuel (each iteration finalizes a fresh
node, so `node_count + 1` units suffice). -/
def dijkstraLoop (g : fossil_graph) : Nat → DijkstraState → DijkstraState
  | 0, s => s
  | fuel + 1, s =>
    match dijkstraStep g s with
    | none => s
    | some s' => dijkstraLoop g fuel s'

/-- Initial Dijkstra state: every distance is the sentinel except
`dist[start] = 0`; no node is finalized. -/
def dijkstraInit (start : Nat) : DijkstraState :=
  { dist := fupd (fun _ => none) start (some 0), used := fun _ => false }

/-- `graph_dijkstra` from ml.c: validation, the selection/relaxation loop,
then `-1` if the target's distance is still the sentinel, else `0`. -/
def graph_dijkstra (graph : Option fossil_graph) (start target : Nat) : Int :=
  match graph with
  | none => -4
  | some g =>
    if !g.weighted then -4
    else if g.node_count ≤ start ∨ g.node_count ≤ target then -2
    else if g.node_count = 0 then -2
    else
      let s := dijkstraLoop g (g.node_count + 1) (dijkstraInit start)
      match s.dist target with
      | none => -1
      | some _ => 0

-- ======================================================
-- Catalog and dispatcher
-- ======================================================

/-- The algorithm identifier strings used by the catalog and dispatcher. -/
def sBfs : String := "bfs"

/-- The DFS identifier string. -/
def sDfs : String := "dfs"

/-- The Dijkstra identifier string. -/
def sDijkstra : String := "dijkstra"

/-- The Bellman-Ford identifier string (recognized by
`requires_weights` only). -/
def sBellmanFord : String := "bellman-ford"

/-- The Floyd-Warshall identifier string (recognized by
`requires_weights` only). -/
def sFloydWarshall : String := "floyd-warshall"

/-- The empty identifier string. -/
def sEmpty : String := ""

/-- An identifier string outside the supported set. -/
def sKruskal : String := "kruskal"

/-- `algorithm_equals`: `a && b && strcmp(a, b) == 0` on nullable strings. -/
def algorithm_equals : Option String → Option String → Bool
  | some a, some b => a == b
  | _, _ => false

/-- `fossil_algorithm_graph_supported` from ml.c. -/
def fossil_algorithm_graph_supported (algorithm_id : Option String) : Bool :=
  match algorithm_id with
  | none => false
  | some _ =>
    algorithm_equals algorithm_id (some sBfs) ||
    algorithm_equals algorithm_id (some sDfs) ||
    algorithm_equals algorithm_id (some sDijkstra)

/-- `fossil_algorithm_graph_requires_weights` from ml.c. -/
def fossil_algorithm_graph_requires_weights (algorithm_id : Option String) : Bool :=
  match algorithm_id with
  | none => false
  | some _ =>
    algorithm_equals algorithm_id (some sDijkstra) ||
    algorithm_equals algorithm_id (some sBellmanFord) ||
    algorithm_equals algorithm_id (some sFloydWarshall)

/-- `fossil_algorithm_graph_exec` from ml.c: null checks, supported check,
empty-graph check, then routing with the per-algorithm range / weightedness
checks. The Dijkstra branch passes no visitor (empty trace). -/
def fossil_algorithm_graph_exec (graph : Option fossil_graph)
    (algorithm_id : Option String) (start_node target_node : Nat)
    (visit : Option (Nat → Bool)) : TravOut :=
  match graph, algorithm_id with
  | none, _ => errOut (-2)
  | _, none => errOut (-2)
  | some g, some _ =>
    if !fossil_algorithm_graph_supported algorithm_id then errOut (-3)
    else if g.node_count = 0 then errOut (-2)
    else if algorithm_equals algorithm_id (some sBfs) ||
            algorithm_equals algorithm_id (some sDfs) then
      if g.node_count ≤ start_node then errOut (-2)
      else if algorithm_equals algorithm_id (some sBfs) then
        graph_bfs (some g) start_node visit
      else
        graph_dfs (some g) start_node visit
    else if algorithm_equals algorithm_id (some sDijkstra) then
      if !g.weighted then errOut (-4)
      else if g.node_count ≤ start_node ∨ g.node_count ≤ target_node then
        errOut (-2)
      else
        { status := graph_dijkstra (some g) start_node target_node,
          trace := [], visited := fun _ => false, queue := [] }
    else errOut (-3)

-- ======================================================
-- Concrete graphs for witnesses and counterexamples
-- ======================================================

/-- One node, no edges, weighted. -/
def gOne : fossil_graph :=
  { node_count := 1, directed := true, weighted := true, adj := some [[]] }

/-- One node, no edges, unweighted. -/
def gOneUnweighted : fossil_graph :=
  { node_count := 1, directed := true, weighted := false, adj := some [[]] }

/-- Two nodes, a single weighted edge 0 → 1 of weight 1. -/
def gEdge : fossil_graph :=
  { node_count := 2, directed := true, weighted := true,
    adj := some [[⟨1, 1⟩], []] }

/-- Two disconnected nodes, weighted. -/
def gDisc : fossil_graph :=
  { node_count := 2, directed := true, weighted := true,
    adj := some [[], []] }

/-- Two nodes with a negative back edge: 0 → 1 of weight 5 and 1 → 0 of
weight −10 (exercises relaxation into a finalized node). -/
def gNeg : fossil_graph :=
  { node_count := 2, directed := true, weighted := true,
    adj := some [[⟨1, 5⟩], [⟨0, -10⟩]] }

-- ======================================================
-- Invariants used by the correctness proofs
-- ======================================================

/-- Invariant of the BFS loop state: the queue holds pairwise-distinct,
in-range node ids; a node is visited exactly when it is in the queue (nodes
are marked at the moment they are enqueued); the read index never passes the
write index; and every visited node is reachable from the start node. -/
structure BfsInv (g : fossil_graph) (start : Nat) (s : BfsState) : Prop where
  nodup : s.queue.Nodup
  bound : ∀ x ∈ s.queue, x < g.node_count
  mem_visited : ∀ x, s.visited x = true ↔ x ∈ s.queue
  head_le : s.head ≤ s.queue.length
  sound : ∀ x, s.visited x = true → Reachable g start x

/-- Every dequeued (processed) queue position has had all its outgoing edges
expanded: their destinations are visited. -/
def BfsProcessed (g : fossil_graph) (s : BfsState) : Prop :=
  ∀ i (h2 : i < s.queue.length), i < s.head →
    ∀ e ∈ adjOf g (s.queue.get ⟨i, h2⟩), s.visited e.«to» = true

/-- Number of unvisited nodes among `[0, n)` (the DFS fuel measure). -/
def unvisCount (n : Nat) (visited : Nat → Bool) : Nat :=
  ((Finset.range n).filter (fun x => visited x = false)).card

/-- Invariant of the Dijkstra loop state for the reachability argument: a
finite tentative distance certifies reachability from the start node; every
finalized node has a finite distance; the neighbors of a finalized node have
finite distances; and the start node's distance stays finite. -/
structure DijkstraInv (g : fossil_graph) (start : Nat) (s : DijkstraState) :
    Prop where
  reach : ∀ v, s.dist v ≠ none → Reachable g start v
  used_fin : ∀ v, s.used v = true → s.dist v ≠ none
  closure : ∀ u, s.used u = true → ∀ e ∈ adjOf g u, s.dist e.«to» ≠ none
  start_fin : s.dist start ≠ none

/-- Order invariant of the Dijkstra loop (used for finalized-distance
stability under non-negative weights): every finalized node's distance is at
most every unfinalized node's distance, and nodes outside `[0, node_count)`
keep the sentinel distance and stay unfinalized. -/
structure DijkstraOrd (g : fossil_graph) (s : DijkstraState) : Prop where
  ord : ∀ u x, s.used u = true → s.used x = false →
    toW (s.dist u) ≤ toW (s.dist x)
  high : ∀ x, g.node_count ≤ x → s.dist x = none ∧ s.used x = false

-- ======================================================
-- Basic lemmas
-- ======================================================

theorem fupd_apply {α : Type} (f : Nat → α) (i : Nat) (a : α) (x : Nat) :
    fupd f i a x = if x = i then a else f x := rfl

theorem distLt_iff (a b : Option ℚ) : distLt a b = true ↔ toW a < toW b := by
  cases a <;> cases b <;>
    simp [distLt, toW, WithTop.coe_lt_top, WithTop.coe_lt_coe]

theorem distLt_false_iff (a b : Option ℚ) :
    distLt a b = false ↔ toW b ≤ toW a := by
  have h := distLt_iff a b
  rw [← not_lt]
  cases hd : distLt a b <;> simp_all

theorem toW_optAdd (a : Option ℚ) (w : ℚ) :
    toW (optAdd a w) = toW a + (w : WithTop ℚ) := by
  cases a <;> simp [optAdd, toW]

theorem toW_eq_top_iff (a : Option ℚ) : toW a = ⊤ ↔ a = none := by
  cases a <;> simp [toW]

theorem toW_injective : Function.Injective toW := by
  intro a b h
  cases a <;> cases b <;> simp_all [toW]

theorem Reachable.of_step {g : fossil_graph} {a b : Nat}
    (e : fossil_graph_edge_node) (he : e ∈ adjOf g a) (hto : e.«to» = b) :
    Reachable g a b :=
  Relation.ReflTransGen.single ⟨e, he, hto⟩

theorem Reachable.trans_step {g : fossil_graph} {a b c : Nat}
    (h : Reachable g a b) (e : fossil_graph_edge_node) (he : e ∈ adjOf g b)
    (hto : e.«to» = c) : Reachable g a c :=
  Relation.ReflTransGen.tail h ⟨e, he, hto⟩

-- ======================================================
-- Engine status lemmas
-- ======================================================

theorem graph_bfs_status (g : fossil_graph) (start : Nat)
    (visit : Option (Nat → Bool)) (hs : ¬ g.node_count ≤ start) :
    (graph_bfs (some g) start visit).status = 0 := by
  have hn : ¬ g.node_count = 0 := by omega
  simp [graph_bfs, hs, hn]

theorem graph_dfs_status (g : fossil_graph) (start : Nat)
    (visit : Option (Nat → Bool)) (hs : ¬ g.node_count ≤ start) :
    (graph_dfs (some g) start visit).status = 0 := by
  have hn : ¬ g.node_count = 0 := by omega
  simp [graph_dfs, hs, hn]

-- ======================================================
-- Claims C5, C6, C7, C9, C10
-- ======================================================

/-- Claim C5 counterexample: the engines do contain their own validation
checks — invoked directly with a null graph, an out-of-range start node, or
(for Dijkstra) an unweighted graph, they themselves produce the validation
error statuses, which a check-free engine could not. -/
theorem engines_do_validate_counterexample :
    (graph_bfs (some gOne) 5 none).status = -2 ∧
    (graph_dfs (some gOne) 5 none).status = -2 ∧
    (graph_bfs none 0 none).status = -2 ∧
    (graph_dfs none 0 none).status = -2 ∧
    graph_dijkstra (some gOneUnweighted) 0 0 = -4 ∧
    graph_dijkstra (some gOne) 5 0 = -2 := by
  refine ⟨rfl, rfl, rfl, rfl, rfl, ?_⟩
  simp [graph_dijkstra, gOne]

/-- Claim C5, amended: the Traversal and Shortest-Path Engines do re-validate
their inputs: each traversal engine checks the graph for null, the start node
for range, and the graph for emptiness and returns -2 itself; the
shortest-path engine additionally checks weightedness (-4) and both node ids
(-2). -/
theorem engines_revalidate (g : fossil_graph) (start target : Nat)
    (visit : Option (Nat → Bool)) :
    (graph_bfs none start visit).status = -2 ∧
    (graph_dfs none start visit).status = -2 ∧
    graph_dijkstra none start target = -4 ∧
    (g.node_count ≤ start →
      (graph_bfs (some g) start visit).status = -2 ∧
      (graph_dfs (some g) start visit).status = -2) ∧
    (g.weighted = false → graph_dijkstra (some g) start target = -4) ∧
    (g.weighted = true → g.node_count ≤ start ∨ g.node_count ≤ target →
      graph_dijkstra (some g) start target = -2) := by
  refine ⟨rfl, rfl, rfl, ?_, ?_, ?_⟩
  · intro h
    constructor <;> simp [graph_bfs, graph_dfs, h, errOut]
  · intro hw
    simp [graph_dijkstra, hw]
  · intro hw hr
    simp [graph_dijkstra, hw, hr]

/-- Claim C5 witness: the amended statement at concrete inputs. -/
theorem engines_revalidate_witness :
    (graph_bfs (some gOne) 5 none).status = -2 ∧
    graph_dijkstra (some gOneUnweighted) 3 4 = -4 :=
  ⟨((engines_revalidate gOne 5 0 none).2.2.2.1 (by decide)).1,
   (engines_revalidate gOneUnweighted 3 4 none).2.2.2.2.1 rfl⟩

/-- Claim C6: for every unweighted non-empty graph and every pair of node ids
(in range or not), exec with algorithm id "dijkstra" returns -4; the
weightedness check precedes the start/target range checks. -/
theorem exec_dijkstra_unweighted_neg4 (g : fossil_graph) (start target : Nat)
    (visit : Option (Nat → Bool)) (hw : g.weighted = false)
    (hn : g.node_count ≠ 0) :
    (fossil_algorithm_graph_exec (some g) (some sDijkstra) start target
      visit).status = -4 := by
  simp [fossil_algorithm_graph_exec, fossil_algorithm_graph_supported, hn, hw,
    algorithm_equals, sBfs, sDfs, sDijkstra, errOut]

/-- Claim C6 witness: a one-node unweighted graph with both node ids out of
range still yields -4. -/
theorem exec_dijkstra_unweighted_neg4_witness :
    gOneUnweighted.weighted = false ∧ gOneUnweighted.node_count ≠ 0 ∧
    (fossil_algorithm_graph_exec (some gOneUnweighted) (some sDijkstra) 7 9
      none).status = -4 :=
  ⟨rfl, by decide,
    exec_dijkstra_unweighted_neg4 gOneUnweighted 7 9 none rfl (by decide)⟩

/-- Claim C7 counterexample: a null algorithm identifier is outside
{bfs, dfs, dijkstra}, yet exec on a non-null graph returns -2 (the null-check
fires before the supported-check), not -3 as the claim requires. -/
theorem exec_null_id_counterexample :
    (fossil_algorithm_graph_exec (some gOne) none 0 0 none).status = -2 ∧
    ((-2 : Int) ≠ -3) := by
  exact ⟨rfl, by decide⟩

/-- Claim C7, amended: supported(algorithm_id) is true iff algorithm_id is
exactly one of "bfs", "dfs", "dijkstra" (case-sensitive exact match; null or
empty identifier yields false), and for every non-null graph and every
NON-NULL algorithm_id outside that set, exec returns -3 (with a null
identifier, exec returns -2 instead). -/
theorem supported_iff_and_exec_unsupported :
    (∀ a : String, fossil_algorithm_graph_supported (some a) = true ↔
      (a = sBfs ∨ a = sDfs ∨ a = sDijkstra)) ∧
    fossil_algorithm_graph_supported none = false ∧
    fossil_algorithm_graph_supported (some sEmpty) = false ∧
    (∀ (g : fossil_graph) (a : String) (start target : Nat)
      (visit : Option (Nat → Bool)),
      a ≠ sBfs → a ≠ sDfs → a ≠ sDijkstra →
      (fossil_algorithm_graph_exec (some g) (some a) start target
        visit).status = -3) ∧
    (∀ (g : fossil_graph) (start target : Nat) (visit : Option (Nat → Bool)),
      (fossil_algorithm_graph_exec (some g) none start target
        visit).status = -2) := by
  refine ⟨?_, rfl, by decide, ?_, ?_⟩
  · intro a
    simp [fossil_algorithm_graph_supported, algorithm_equals, or_assoc]
  · intro g a start target visit h1 h2 h3
    have hsupp : fossil_algorithm_graph_supported (some a) = false := by
      simp [fossil_algorithm_graph_supported, algorithm_equals, h1, h2, h3]
    simp [fossil_algorithm_graph_exec, hsupp, errOut]
  · intro g start target visit
    rfl

/-- Claim C7 witness: the amended statement at a concrete unsupported
identifier. -/
theorem supported_iff_and_exec_unsupported_witness :
    (fossil_algorithm_graph_exec (some gOne) (some sKruskal) 0 0 none).status
      = -3 :=
  supported_iff_and_exec_unsupported.2.2.2.1 gOne sKruskal 0 0 none
    (by decide) (by decide) (by decide)

/-- Claim C9: requires_weights(algorithm_id) is true iff algorithm_id is
exactly one of "dijkstra", "bellman-ford", "floyd-warshall"; it is false for
a null identifier; and it is true for the two identifiers that supported
rejects. -/
theorem requires_weights_spec :
    (∀ a : String, fossil_algorithm_graph_requires_weights (some a) = true ↔
      (a = sDijkstra ∨ a = sBellmanFord ∨ a = sFloydWarshall)) ∧
    fossil_algorithm_graph_requires_weights none = false ∧
    (fossil_algorithm_graph_requires_weights (some sBellmanFord) = true ∧
      fossil_algorithm_graph_supported (some sBellmanFord) = false) ∧
    (fossil_algorithm_graph_requires_weights (some sFloydWarshall) = true ∧
      fossil_algorithm_graph_supported (some sFloydWarshall) = false) := by
  refine ⟨?_, rfl, by decide, by decide⟩
  intro a
  simp [fossil_algorithm_graph_requires_weights, algorithm_equals, or_assoc]

/-- Claim C10: any exec call that returns a negative status never invokes the
visitor: the invocation trace is empty. -/
theorem exec_negative_status_no_visitor (graph : Option fossil_graph)
    (algorithm_id : Option String) (start target : Nat)
    (visit : Option (Nat → Bool))
    (h : (fossil_algorithm_graph_exec graph algorithm_id start target
      visit).status < 0) :
    (fossil_algorithm_graph_exec graph algorithm_id start target
      visit).trace = [] := by
  match graph, algorithm_id with
  | none, none => rfl
  | none, some _ => rfl
  | some g, none => rfl
  | some g, some a =>
    unfold fossil_algorithm_graph_exec at h ⊢
    by_cases h1 : fossil_algorithm_graph_supported (some a) = true
    case neg => simp_all [errOut]
    simp only [h1, Bool.not_true, Bool.false_eq_true, if_false, if_true] at h ⊢
    by_cases h2 : g.node_count = 0
    · simp_all [errOut]
    simp only [h2, if_false] at h ⊢
    by_cases h3 : (algorithm_equals (some a) (some sBfs) ||
        algorithm_equals (some a) (some sDfs)) = true
    · simp only [h3, if_true] at h ⊢
      by_cases h4 : g.node_count ≤ start
      · simp_all [errOut]
      simp only [h4, if_false] at h ⊢
      by_cases h5 : algorithm_equals (some a) (some sBfs) = true
      · simp only [h5, if_true] at h
        exact absurd h (by simp [graph_bfs_status g start visit h4])
      · simp only [h5, Bool.false_eq_true, if_false] at h
        exact absurd h (by simp [graph_dfs_status g start visit h4])
    · simp only [h3, Bool.false_eq_true, if_false] at h ⊢
      by_cases h6 : algorithm_equals (some a) (some sDijkstra) = true
      · simp only [h6, if_true] at h ⊢
        by_cases h7 : g.weighted = true
        · simp only [h7, Bool.not_true, Bool.false_eq_true, if_false] at h ⊢
          by_cases h8 : g.node_count ≤ start ∨ g.node_count ≤ target
          · simp_all [errOut]
          · simp only [h8, if_false]
        · simp only [Bool.not_eq_true] at h7
          simp_all [errOut]
      · simp_all [errOut]

/-- Claim C10 witness: a call returning a negative status (null graph, -2)
with an empty trace. -/
theorem exec_negative_status_no_visitor_witness :
    (fossil_algorithm_graph_exec none none 0 0 none).status < 0 ∧
    (fossil_algorithm_graph_exec none none 0 0 none).trace = [] :=
  ⟨by decide, exec_negative_status_no_visitor none none 0 0 none (by decide)⟩

-- ======================================================
-- Dispatcher routing lemmas
-- ======================================================

theorem exec_dispatch_bfs (g : fossil_graph) (start target : Nat)
    (visit : Option (Nat → Bool)) (hs : start < g.node_count) :
    fossil_algorithm_graph_exec (some g) (some sBfs) start target visit =
      graph_bfs (some g) start visit := by
  have hn : ¬ g.node_count = 0 := by omega
  simp [fossil_algorithm_graph_exec, fossil_algorithm_graph_supported,
    algorithm_equals, sBfs, sDfs, sDijkstra, hn, Nat.not_le.mpr hs]

theorem exec_dispatch_dfs (g : fossil_graph) (start target : Nat)
    (visit : Option (Nat → Bool)) (hs : start < g.node_count) :
    fossil_algorithm_graph_exec (some g) (some sDfs) start target visit =
      graph_dfs (some g) start visit := by
  have hn : ¬ g.node_count = 0 := by omega
  simp [fossil_algorithm_graph_exec, fossil_algorithm_graph_supported,
    algorithm_equals, sBfs, sDfs, sDijkstra, hn, Nat.not_le.mpr hs]

theorem exec_dispatch_dijkstra (g : fossil_graph) (start target : Nat)
    (visit : Option (Nat → Bool)) (hw : g.weighted = true)
    (hs : start < g.node_count) (ht : target < g.node_count) :
    (fossil_algorithm_graph_exec (some g) (some sDijkstra) start target
      visit).status = graph_dijkstra (some g) start target := by
  have hn : ¬ g.node_count = 0 := by omega
  simp [fossil_algorithm_graph_exec, fossil_algorithm_graph_supported,
    algorithm_equals, sBfs, sDfs, sDijkstra, hn, hw,
    Nat.not_le.mpr hs, Nat.not_le.mpr ht]

-- ======================================================
-- Claim C4: early stop
-- ======================================================

theorem graph_bfs_early_stop (g : fossil_graph) (start : Nat) (f : Nat → Bool)
    (hs : start < g.node_count) (hf : f start = false) :
    graph_bfs (some g) start (some f) =
      { status := 0, trace := [start],
        visited := fupd (fun _ => false) start true, queue := [start] } := by
  have hn : ¬ g.node_count = 0 := by omega
  simp [graph_bfs, Nat.not_le.mpr hs, hn, bfsLoop, bfsInit, hf]

theorem graph_dfs_early_stop (g : fossil_graph) (start : Nat) (f : Nat → Bool)
    (hs : start < g.node_count) (hf : f start = false) :
    graph_dfs (some g) start (some f) =
      { status := 0, trace := [start],
        visited := fupd (fun _ => false) start true, queue := [] } := by
  have hn : ¬ g.node_count = 0 := by omega
  obtain ⟨m, hm⟩ := Nat.exists_eq_succ_of_ne_zero hn
  simp only [graph_dfs, Nat.not_le.mpr hs, hn, if_false, ite_false]
  rw [hm]
  simp [dfs_visit, hf]

/-- Claim C4: for every graph, every in-range start node, and both "bfs" and
"dfs", a visitor that returns false on its first invocation (the start node)
results in exactly one visitor invocation, no further node expansion (only
the start node ends up visited), and status 0. -/
theorem traversal_early_stop (g : fossil_graph) (start target : Nat)
    (f : Nat → Bool) (hs : start < g.node_count) (hf : f start = false) :
    ((fossil_algorithm_graph_exec (some g) (some sBfs) start target
        (some f)).status = 0 ∧
      (fossil_algorithm_graph_exec (some g) (some sBfs) start target
        (some f)).trace = [start] ∧
      ∀ x, (fossil_algorithm_graph_exec (some g) (some sBfs) start target
        (some f)).visited x = true ↔ x = start) ∧
    ((fossil_algorithm_graph_exec (some g) (some sDfs) start target
        (some f)).status = 0 ∧
      (fossil_algorithm_graph_exec (some g) (some sDfs) start target
        (some f)).trace = [start] ∧
      ∀ x, (fossil_algorithm_graph_exec (some g) (some sDfs) start target
        (some f)).visited x = true ↔ x = start) := by
  rw [exec_dispatch_bfs g start target (some f) hs,
    exec_dispatch_dfs g start target (some f) hs,
    graph_bfs_early_stop g start f hs hf, graph_dfs_early_stop g start f hs hf]
  refine ⟨⟨rfl, rfl, ?_⟩, rfl, rfl, ?_⟩ <;>
    · intro x
      simp [fupd]

/-- Claim C4 witness: the early-stop behavior on a concrete two-node graph
with a constantly-false visitor. -/
theorem traversal_early_stop_witness :
    (fossil_algorithm_graph_exec (some gEdge) (some sBfs) 0 1
      (some fun _ => false)).trace = [0] ∧
    (fossil_algorithm_graph_exec (some gEdge) (some sDfs) 0 1
      (some fun _ => false)).status = 0 :=
  ⟨(traversal_early_stop gEdge 0 1 (fun _ => false) (by decide) rfl).1.2.1,
   (traversal_early_stop gEdge 0 1 (fun _ => false) (by decide) rfl).2.1⟩

-- ======================================================
-- BFS invariant preservation (claims C8, C3)
-- ======================================================

theorem bfsExpand_head (es : List fossil_graph_edge_node) :
    ∀ s : BfsState, (bfsExpand s es).head = s.head := by
  induction es with
  | nil => intro s; rfl
  | cons e rest ih =>
    intro s
    by_cases h : s.visited e.«to» = true <;> simp [bfsExpand, h, ih]

theorem bfsExpand_trace (es : List fossil_graph_edge_node) :
    ∀ s : BfsState, (bfsExpand s es).trace = s.trace := by
  induction es with
  | nil => intro s; rfl
  | cons e rest ih =>
    intro s
    by_cases h : s.visited e.«to» = true <;> simp [bfsExpand, h, ih]

theorem bfsExpand_queue_prefix (es : List fossil_graph_edge_node) :
    ∀ s : BfsState, ∃ l, (bfsExpand s es).queue = s.queue ++ l := by
  induction es with
  | nil => intro s; exact ⟨[], by simp [bfsExpand]⟩
  | cons e rest ih =>
    intro s
    by_cases h : s.visited e.«to» = true
    · simpa [bfsExpand, h] using ih s
    · obtain ⟨l, hl⟩ := ih { s with visited := fupd s.visited e.«to» true, queue := s.queue ++ [e.«to»] }
      exact ⟨e.«to» :: l, by simp [bfsExpand, h, hl]⟩

theorem bfsExpand_visited_mono (es : List fossil_graph_edge_node) :
    ∀ s : BfsState, ∀ x, s.visited x = true → (bfsExpand s es).visited x = true := by
  induction es with
  | nil => intro s x hx; exact hx
  | cons e rest ih =>
    intro s x hx
    by_cases h : s.visited e.«to» = true
    · simpa [bfsExpand, h] using ih s x hx
    · simp only [bfsExpand, h, if_false]
      exact ih _ x (by simp [fupd_apply, hx])

theorem bfsExpand_marks (es : List fossil_graph_edge_node) :
    ∀ s : BfsState, ∀ e ∈ es, (bfsExpand s es).visited e.«to» = true := by
  induction es with
  | nil => intro s e he; cases he
  | cons e rest ih =>
    intro s e' he'
    rcases List.mem_cons.mp he' with rfl | hmem
    · by_cases h : s.visited e'.«to» = true
      · simpa [bfsExpand, h] using bfsExpand_visited_mono rest s _ h
      · simp only [bfsExpand, h, if_false]
        exact bfsExpand_visited_mono rest _ _ (by simp [fupd_apply])
    · by_cases h : s.visited e.«to» = true <;> simp [bfsExpand, h, ih _ _ hmem]

theorem bfsExpand_inv (g : fossil_graph) (start v : Nat)
    (hrange : EdgesInRange g) (hvn : v < g.node_count)
    (hv : Reachable g start v) (es : List fossil_graph_edge_node) :
    ∀ s : BfsState, (∀ e ∈ es, e ∈ adjOf g v) → BfsInv g start s →
      BfsInv g start (bfsExpand s es) := by
  induction es with
  | nil => intro s _ hinv; exact hinv
  | cons e rest ih =>
    intro s hsub hinv
    by_cases h : s.visited e.«to» = true
    · simp only [bfsExpand, h, if_true]
      exact ih s (fun e' he' => hsub e' (List.mem_cons_of_mem e he')) hinv
    · simp only [bfsExpand, h, if_false]
      refine ih _ (fun e' he' => hsub e' (List.mem_cons_of_mem e he')) ?_
      have hto : e.«to» < g.node_count :=
        hrange v hvn e (hsub e (List.mem_cons_self e rest))
      have hnotin : e.«to» ∉ s.queue := fun hc =>
        h ((hinv.mem_visited e.«to»).mpr hc)
      refine ⟨?_, ?_, ?_, ?_, ?_⟩
      · simpa [List.nodup_append, hinv.nodup] using hnotin
      · intro x hx
        rcases List.mem_append.mp hx with hx | hx
        · exact hinv.bound x hx
        · simp at hx; subst hx; exact hto
      · intro x
        by_cases hxe : x = e.«to»
        · subst hxe; simp [fupd_apply]
        · simp only [fupd_apply, if_neg hxe, List.mem_append,
            List.mem_singleton, hxe, or_false]
          exact hinv.mem_visited x
      · simpa using Nat.le_trans hinv.head_le (by simp)
      · intro x hx
        by_cases hxe : x = e.«to»
        · subst hxe
          exact hv.trans_step e (hsub e (List.mem_cons_self e rest)) rfl
        · exact hinv.sound x (by simpa [fupd_apply, hxe] using hx)

theorem bfsLoop_inv (g : fossil_graph) (start : Nat)
    (visit : Option (Nat → Bool)) (hrange : EdgesInRange g) :
    ∀ (fuel : Nat) (s : BfsState), BfsInv g start s →
      BfsInv g start (bfsLoop g visit fuel s) := by
  intro fuel
  induction fuel with
  | zero => intro s hinv; exact hinv
  | succ fuel ih =>
    intro s hinv
    rw [bfsLoop]
    split
    case isFalse => exact hinv
    case isTrue h =>
      have hvmem : s.queue.get ⟨s.head, h⟩ ∈ s.queue := s.queue.get_mem _ h
      have hvn : s.queue.get ⟨s.head, h⟩ < g.node_count :=
        hinv.bound _ hvmem
      have hvis : s.visited (s.queue.get ⟨s.head, h⟩) = true :=
        (hinv.mem_visited _).mpr hvmem
      have hreach : Reachable g start (s.queue.get ⟨s.head, h⟩) :=
        hinv.sound _ hvis
      have hinv1 : BfsInv g start
          { s with head := s.head + 1, trace := s.trace ++
              [s.queue.get ⟨s.head, h⟩] } :=
        ⟨hinv.nodup, hinv.bound, hinv.mem_visited, h, hinv.sound⟩
      have hinv2 : BfsInv g start
          { s with head := s.head + 1 } :=
        ⟨hinv.nodup, hinv.bound, hinv.mem_visited, h, hinv.sound⟩
      match visit with
      | some f =>
        by_cases hf : f (s.queue.get ⟨s.head, h⟩) = true
        · simp only [hf, if_true]
          exact ih _ (bfsExpand_inv g start _ hrange hvn hreach _ _
            (fun e he => he) hinv1)
        · simp only [Bool.not_eq_true] at hf
          simp only [hf, Bool.false_eq_true, if_false]
          exact hinv1
      | none =>
        exact ih _ (bfsExpand_inv g start _ hrange hvn hreach _ _
          (fun e he => he) hinv2)

theorem bfsInit_inv (g : fossil_graph) (start : Nat)
    (hs : start < g.node_count) : BfsInv g start (bfsInit start) := by
  refine ⟨?_, ?_, ?_, ?_, ?_⟩
  · simp [bfsInit]
  · intro x hx; simp [bfsInit] at hx; subst hx; exact hs
  · intro x
    by_cases hxe : x = start <;> simp [bfsInit, fupd_apply, hxe]
  · simp [bfsInit]
  · intro x hx
    simp only [bfsInit, fupd_apply] at hx
    by_cases hxe : x = start
    · subst hxe; exact Relation.ReflTransGen.refl
    · simp [hxe] at hx

theorem length_le_of_nodup_lt (l : List Nat) (n : Nat) (hnd : l.Nodup)
    (hb : ∀ x ∈ l, x < n) : l.length ≤ n := by
  have h1 : l.toFinset.card = l.length := List.toFinset_card_of_nodup hnd
  have h2 : l.toFinset ⊆ Finset.range n := by
    intro x hx
    simp only [Finset.mem_range]
    exact hb x (List.mem_toFinset.mp hx)
  calc l.length = l.toFinset.card := h1.symm
    _ ≤ (Finset.range n).card := Finset.card_le_card h2
    _ = n := Finset.card_range n

/-- Claim C8: in BFS every node is enqueued at most once (the final queue
contents are pairwise distinct, and only nodes marked visited are ever in
it), so the total number of enqueues is at most node_count and writes to the
queue array of capacity node_count stay in bounds. -/
theorem bfs_enqueue_bound (g : fossil_graph) (start : Nat)
    (visit : Option (Nat → Bool)) (hrange : EdgesInRange g)
    (hs : start < g.node_count) :
    (graph_bfs (some g) start visit).queue.Nodup ∧
    (graph_bfs (some g) start visit).queue.length ≤ g.node_count ∧
    ∀ x ∈ (graph_bfs (some g) start visit).queue,
      (graph_bfs (some g) start visit).visited x = true := by
  have hns : ¬ g.node_count ≤ start := Nat.not_le.mpr hs
  have hn : ¬ g.node_count = 0 := by omega
  have hinv := bfsLoop_inv g start visit hrange (g.node_count + 1)
    (bfsInit start) (bfsInit_inv g start hs)
  simp only [graph_bfs, hns, hn, if_false, ite_false]
  exact ⟨hinv.nodup,
    length_le_of_nodup_lt _ _ hinv.nodup hinv.bound,
    fun x hx => (hinv.mem_visited x).mpr hx⟩

/-- Claim C8 witness: the queue bound on a concrete graph. -/
theorem bfs_enqueue_bound_witness :
    (graph_bfs (some gEdge) 0 none).queue.Nodup ∧
    (graph_bfs (some gEdge) 0 none).queue.length ≤ gEdge.node_count :=
  ⟨(bfs_enqueue_bound gEdge 0 none (by decide) (by decide)).1,
   (bfs_enqueue_bound gEdge 0 none (by decide) (by decide)).2.1⟩

-- ======================================================
-- BFS completeness (claim C3)
-- ======================================================

theorem bfsExpand_processed (g : fossil_graph)
    (es : List fossil_graph_edge_node) (s : BfsState)
    (hp : BfsProcessed g s) (hh : s.head ≤ s.queue.length) :
    BfsProcessed g (bfsExpand s es) := by
  intro i h2 hi e he
  obtain ⟨l, hl⟩ := bfsExpand_queue_prefix es s
  have hhead := bfsExpand_head es s
  rw [hhead] at hi
  have h2s : i < s.queue.length := Nat.lt_of_lt_of_le hi hh
  have hget : (bfsExpand s es).queue.get ⟨i, h2⟩ = s.queue.get ⟨i, h2s⟩ := by
    simp only [List.get_eq_getElem, hl]
    exact (List.getElem_append_left' l h2s).symm
  rw [hget] at he
  exact bfsExpand_visited_mono es s _ (hp i h2s hi e he)

theorem bfsLoop_visited_mono (g : fossil_graph) (visit : Option (Nat → Bool)) :
    ∀ (fuel : Nat) (s : BfsState) (x : Nat), s.visited x = true →
      (bfsLoop g visit fuel s).visited x = true := by
  intro fuel
  induction fuel with
  | zero => intro s x hx; exact hx
  | succ fuel ih =>
    intro s x hx
    rw [bfsLoop]
    split
    case isFalse => exact hx
    case isTrue h =>
      match visit with
      | some f =>
        by_cases hf : f (s.queue.get ⟨s.head, h⟩) = true
        · simp only [hf, if_true]
          exact ih _ x (bfsExpand_visited_mono _ _ x hx)
        · simp only [Bool.not_eq_true] at hf
          simp only [hf, Bool.false_eq_true, if_false]
          exact hx
      | none => exact ih _ x (bfsExpand_visited_mono _ _ x hx)

theorem bfsLoop_complete (g : fossil_graph) (start : Nat)
    (visit : Option (Nat → Bool)) (hrange : EdgesInRange g)
    (hac : AlwaysContinue visit) :
    ∀ (fuel : Nat) (s : BfsState), BfsInv g start s → BfsProcessed g s →
      g.node_count + 1 - s.head ≤ fuel →
      BfsInv g start (bfsLoop g visit fuel s) ∧
      BfsProcessed g (bfsLoop g visit fuel s) ∧
      ¬ (bfsLoop g visit fuel s).head < (bfsLoop g visit fuel s).queue.length := by
  intro fuel
  induction fuel with
  | zero =>
    intro s hinv hp hfuel
    exfalso
    have hlen : s.queue.length ≤ g.node_count :=
      length_le_of_nodup_lt _ _ hinv.nodup hinv.bound
    have hhl := hinv.head_le
    omega
  | succ fuel ih =>
    intro s hinv hp hfuel
    rw [bfsLoop]
    split
    case isFalse h => exact ⟨hinv, hp, h⟩
    case isTrue h =>
      have hvmem : s.queue.get ⟨s.head, h⟩ ∈ s.queue := s.queue.get_mem _ h
      have hvn : s.queue.get ⟨s.head, h⟩ < g.node_count := hinv.bound _ hvmem
      have hvis : s.visited (s.queue.get ⟨s.head, h⟩) = true :=
        (hinv.mem_visited _).mpr hvmem
      have hreach : Reachable g start (s.queue.get ⟨s.head, h⟩) :=
        hinv.sound _ hvis
      have hlen : s.queue.length ≤ g.node_count :=
        length_le_of_nodup_lt _ _ hinv.nodup hinv.bound
      have key : ∀ tr : List Nat,
          BfsInv g start (bfsExpand { s with head := s.head + 1, trace := tr }
            (adjOf g (s.queue.get ⟨s.head, h⟩))) ∧
          BfsProcessed g (bfsExpand { s with head := s.head + 1, trace := tr }
            (adjOf g (s.queue.get ⟨s.head, h⟩))) := by
        intro tr
        have hinv1 : BfsInv g start { s with head := s.head + 1, trace := tr } :=
          ⟨hinv.nodup, hinv.bound, hinv.mem_visited, h, hinv.sound⟩
        constructor
        · exact bfsExpand_inv g start _ hrange hvn hreach _ _ (fun e he => he)
            hinv1
        · intro i h2 hi e he
          obtain ⟨l, hl⟩ := bfsExpand_queue_prefix
            (adjOf g (s.queue.get ⟨s.head, h⟩))
            { s with head := s.head + 1, trace := tr }
          rw [bfsExpand_head] at hi
          simp only at hi
          have h2s : i < s.queue.length := by
            rw [hl] at h2
            simp only [List.length_append] at h2
            by_cases hcase : i < s.head
            · omega
            · have : i = s.head := by omega
              omega
          have hget : (bfsExpand { s with head := s.head + 1, trace := tr }
              (adjOf g (s.queue.get ⟨s.head, h⟩))).queue.get ⟨i, h2⟩ =
              s.queue.get ⟨i, h2s⟩ := by
            simp only [List.get_eq_getElem] at hl ⊢
            simp only [hl]
            exact (List.getElem_append_left' l h2s).symm
          rw [hget] at he
          rcases Nat.lt_or_ge i s.head with hi' | hi'
          · exact bfsExpand_visited_mono _ _ _ (hp i h2s hi' e he)
          · have hieq : i = s.head := by omega
            have heq2 : s.queue.get ⟨i, h2s⟩ = s.queue.get ⟨s.head, h⟩ := by
              simp only [hieq]
            rw [heq2] at he
            exact bfsExpand_marks _ _ e he
      have hfuel' : ∀ tr : List Nat,
          g.node_count + 1 -
            (bfsExpand { s with head := s.head + 1, trace := tr }
              (adjOf g (s.queue.get ⟨s.head, h⟩))).head ≤ fuel := by
        intro tr
        rw [bfsExpand_head]
        simp only
        omega
      match visit with
      | some f =>
        have hf : f (s.queue.get ⟨s.head, h⟩) = true := hac f rfl _
        simp only [hf, if_true]
        exact ih _ (key _).1 (key _).2 (hfuel' _)
      | none =>
        exact ih _ (key _).1 (key _).2 (hfuel' _)

theorem reach_subset_visited (g : fossil_graph) (start : Nat)
    (vis : Nat → Bool) (hstart : vis start = true)
    (hclosed : ∀ u, vis u = true → ∀ e ∈ adjOf g u, vis e.«to» = true) :
    ∀ t, Reachable g start t → vis t = true := by
  intro t ht
  induction ht with
  | refl => exact hstart
  | tail hab hbc ih =>
    obtain ⟨e, he, hto⟩ := hbc
    rw [← hto]
    exact hclosed _ ih e he

/-- The visited set of a finished BFS state is closed under adjacency. -/
theorem bfs_final_closed (g : fossil_graph) (start : Nat) (r : BfsState)
    (hinv : BfsInv g start r) (hp : BfsProcessed g r)
    (hdone : ¬ r.head < r.queue.length) :
    ∀ u, r.visited u = true → ∀ e ∈ adjOf g u, r.visited e.«to» = true := by
  intro u hu e he
  have hmem : u ∈ r.queue := (hinv.mem_visited u).mp hu
  obtain ⟨i, hget⟩ := List.get_of_mem hmem
  have hlt : (i : Nat) < r.head := Nat.lt_of_lt_of_le i.isLt (by omega)
  have := hp i i.isLt hlt e (by rw [hget]; exact he)
  exact this

theorem graph_bfs_visits_reachable (g : fossil_graph) (start : Nat)
    (visit : Option (Nat → Bool)) (hrange : EdgesInRange g)
    (hs : start < g.node_count) (hac : AlwaysContinue visit) :
    ∀ x, (graph_bfs (some g) start visit).visited x = true ↔
      Reachable g start x := by
  have hns : ¬ g.node_count ≤ start := Nat.not_le.mpr hs
  have hn : ¬ g.node_count = 0 := by omega
  have hp0 : BfsProcessed g (bfsInit start) := by
    intro i h2 hi e he
    simp [bfsInit] at hi
  obtain ⟨hinv, hp, hdone⟩ := bfsLoop_complete g start visit hrange hac
    (g.node_count + 1) (bfsInit start) (bfsInit_inv g start hs) hp0
    (by simp [bfsInit])
  have hstart : (bfsLoop g visit (g.node_count + 1) (bfsInit start)).visited
      start = true :=
    bfsLoop_visited_mono g visit _ _ start (by simp [bfsInit, fupd_apply])
  simp only [graph_bfs, hns, hn, if_false, ite_false]
  intro x
  constructor
  · exact hinv.sound x
  · exact fun hr => reach_subset_visited g start _ hstart
      (bfs_final_closed g start _ hinv hp hdone) x hr

-- ======================================================
-- DFS lemmas (claim C3)
-- ======================================================

theorem unvisCount_fupd (n : Nat) (vis : Nat → Bool) (v : Nat) (hv : v < n)
    (hf : vis v = false) :
    unvisCount n (fupd vis v true) + 1 = unvisCount n vis := by
  have hmem : v ∈ (Finset.range n).filter (fun x => vis x = false) := by
    simp [hv, hf]
  have hset : (Finset.range n).filter (fun x => fupd vis v true x = false)
      = ((Finset.range n).filter (fun x => vis x = false)).erase v := by
    ext x
    by_cases hxe : x = v <;> simp [hxe, Finset.mem_erase, fupd_apply, hf]
  have hpos : 1 ≤ ((Finset.range n).filter (fun x => vis x = false)).card :=
    Finset.card_pos.mpr ⟨v, hmem⟩
  unfold unvisCount
  rw [hset, Finset.card_erase_of_mem hmem]
  omega

theorem unvisCount_mono (n : Nat) (vis vis' : Nat → Bool)
    (h : ∀ x, vis x = true → vis' x = true) :
    unvisCount n vis' ≤ unvisCount n vis := by
  apply Finset.card_le_card
  intro x hx
  simp only [Finset.mem_filter, Finset.mem_range] at hx ⊢
  refine ⟨hx.1, ?_⟩
  by_contra hc
  simp only [Bool.not_eq_false] at hc
  rw [h x hc] at hx
  exact absurd hx.2 (by simp)

theorem unvisCount_pos (n : Nat) (vis : Nat → Bool) (v : Nat) (hv : v < n)
    (hf : vis v = false) : 1 ≤ unvisCount n vis :=
  Finset.card_pos.mpr ⟨v, by simp [hv, hf]⟩

theorem unvisCount_const_false (n : Nat) :
    unvisCount n (fun _ => false) = n := by
  unfold unvisCount
  rw [Finset.filter_true_of_mem (fun x _ => rfl)]
  exact Finset.card_range n

theorem dfsEdgesGo_mono_of (g : fossil_graph) (visit : Option (Nat → Bool))
    (fuel : Nat)
    (hv : ∀ v s x, s.visited x = true →
      (dfs_visit g visit fuel v s).2.visited x = true) :
    ∀ (es : List fossil_graph_edge_node) (s : DfsState) (x : Nat),
      s.visited x = true → (dfsEdgesGo g visit fuel es s).2.visited x = true := by
  intro es
  induction es with
  | nil => intro s x hx; simpa [dfsEdgesGo] using hx
  | cons e rest ih =>
    intro s x hx
    by_cases hvis : s.visited e.«to» = true
    · simp only [dfsEdgesGo, hvis, if_true]
      exact ih s x hx
    · simp only [Bool.not_eq_true] at hvis
      rcases hres : dfs_visit g visit fuel e.«to» s with ⟨b, s'⟩
      have hsx : s'.visited x = true := by
        have := hv e.«to» s x hx
        rw [hres] at this
        exact this
      cases b
      · simp only [dfsEdgesGo, hvis, Bool.false_eq_true, if_false, hres]
        exact hsx
      · simp only [dfsEdgesGo, hvis, Bool.false_eq_true, if_false, hres]
        exact ih s' x hsx

theorem dfs_visit_mono (g : fossil_graph) (visit : Option (Nat → Bool)) :
    ∀ (fuel : Nat) (v : Nat) (s : DfsState) (x : Nat), s.visited x = true →
      (dfs_visit g visit fuel v s).2.visited x = true := by
  intro fuel
  induction fuel with
  | zero => intro v s x hx; simpa [dfs_visit] using hx
  | succ fuel ih =>
    intro v s x hx
    have hgo := dfsEdgesGo_mono_of g visit fuel ih
    match visit with
    | some f =>
      by_cases hf : f v = true
      · simp only [dfs_visit, hf, if_true]
        exact hgo _ _ x (by simp [fupd_apply, hx])
      · simp only [Bool.not_eq_true] at hf
        simp only [dfs_visit, hf, Bool.false_eq_true, if_false]
        simp [fupd_apply, hx]
    | none =>
      simp only [dfs_visit]
      exact hgo _ _ x (by simp [fupd_apply, hx])

theorem dfsEdgesGo_mono (g : fossil_graph) (visit : Option (Nat → Bool))
    (fuel : Nat) :
    ∀ (es : List fossil_graph_edge_node) (s : DfsState) (x : Nat),
      s.visited x = true → (dfsEdgesGo g visit fuel es s).2.visited x = true :=
  dfsEdgesGo_mono_of g visit fuel (dfs_visit_mono g visit fuel)

theorem dfsEdgesGo_true_of (g : fossil_graph) (visit : Option (Nat → Bool))
    (fuel : Nat)
    (hv : ∀ v s, (dfs_visit g visit fuel v s).1 = true) :
    ∀ (es : List fossil_graph_edge_node) (s : DfsState),
      (dfsEdgesGo g visit fuel es s).1 = true := by
  intro es
  induction es with
  | nil => intro s; simp [dfsEdgesGo]
  | cons e rest ih =>
    intro s
    by_cases hvis : s.visited e.«to» = true
    · simp only [dfsEdgesGo, hvis, if_true]
      exact ih s
    · simp only [Bool.not_eq_true] at hvis
      rcases hres : dfs_visit g visit fuel e.«to» s with ⟨b, s'⟩
      cases b
      · exfalso
        have hT := hv e.«to» s
        rw [hres] at hT
        simp at hT
      · simp only [dfsEdgesGo, hvis, Bool.false_eq_true, if_false, hres]
        exact ih s'

theorem dfs_visit_true (g : fossil_graph) (visit : Option (Nat → Bool))
    (hac : AlwaysContinue visit) :
    ∀ (fuel : Nat) (v : Nat) (s : DfsState),
      (dfs_visit g visit fuel v s).1 = true := by
  intro fuel
  induction fuel with
  | zero => intro v s; simp [dfs_visit]
  | succ fuel ih =>
    intro v s
    have hgo := dfsEdgesGo_true_of g visit fuel ih
    match visit with
    | some f =>
      have hf : f v = true := hac f rfl v
      simp only [dfs_visit, hf, if_true]
      exact hgo _ _
    | none =>
      simp only [dfs_visit]
      exact hgo _ _

theorem dfsEdgesGo_sound_of (g : fossil_graph) (visit : Option (Nat → Bool))
    (fuel : Nat)
    (hv : ∀ v s x, (dfs_visit g visit fuel v s).2.visited x = true →
      s.visited x = true ∨ Reachable g v x) :
    ∀ (es : List fossil_graph_edge_node) (s : DfsState) (x v0 : Nat),
      (∀ e ∈ es, e ∈ adjOf g v0) →
      (dfsEdgesGo g visit fuel es s).2.visited x = true →
      s.visited x = true ∨ Reachable g v0 x := by
  intro es
  induction es with
  | nil => intro s x v0 _ hx; left; simpa [dfsEdgesGo] using hx
  | cons e rest ih =>
    intro s x v0 hsub hx
    by_cases hvis : s.visited e.«to» = true
    · simp only [dfsEdgesGo, hvis, if_true] at hx
      exact ih s x v0 (fun e' he' => hsub e' (List.mem_cons_of_mem e he')) hx
    · simp only [Bool.not_eq_true] at hvis
      rcases hres : dfs_visit g visit fuel e.«to» s with ⟨b, s'⟩
      have hstep : Reachable g e.«to» x → Reachable g v0 x := fun hr =>
        Relation.ReflTransGen.head ⟨e, hsub e (List.mem_cons_self e rest), rfl⟩ hr
      have hs' : s'.visited x = true → s.visited x = true ∨ Reachable g v0 x := by
        intro hsx
        have := hv e.«to» s x (by rw [hres]; exact hsx)
        exact this.imp id hstep
      cases b
      · simp only [dfsEdgesGo, hvis, Bool.false_eq_true, if_false, hres] at hx
        exact hs' hx
      · simp only [dfsEdgesGo, hvis, Bool.false_eq_true, if_false, hres] at hx
        rcases ih s' x v0 (fun e' he' => hsub e' (List.mem_cons_of_mem e he'))
          hx with h1 | h2
        · exact hs' h1
        · exact Or.inr h2

theorem dfs_visit_sound (g : fossil_graph) (visit : Option (Nat → Bool)) :
    ∀ (fuel : Nat) (v : Nat) (s : DfsState) (x : Nat),
      (dfs_visit g visit fuel v s).2.visited x = true →
      s.visited x = true ∨ Reachable g v x := by
  intro fuel
  induction fuel with
  | zero => intro v s x hx; left; simpa [dfs_visit] using hx
  | succ fuel ih =>
    intro v s x hx
    have hgo := dfsEdgesGo_sound_of g visit fuel ih
    have hfin : ∀ w : DfsState, w.visited = fupd s.visited v true →
        w.visited x = true → s.visited x = true ∨ Reachable g v x := by
      intro w hw hwx
      rw [hw, fupd_apply] at hwx
      by_cases hxv : x = v
      · subst hxv; exact Or.inr Relation.ReflTransGen.refl
      · rw [if_neg hxv] at hwx; exact Or.inl hwx
    match visit with
    | some f =>
      by_cases hf : f v = true
      · simp only [dfs_visit, hf, if_true] at hx
        rcases hgo (adjOf g v) _ x v (fun e he => he) hx with h1 | h2
        · exact hfin _ rfl h1
        · exact Or.inr h2
      · simp only [Bool.not_eq_true] at hf
        simp only [dfs_visit, hf, Bool.false_eq_true, if_false] at hx
        rw [fupd_apply] at hx
        by_cases hxv : x = v
        · subst hxv; exact Or.inr Relation.ReflTransGen.refl
        · rw [if_neg hxv] at hx; exact Or.inl hx
    | none =>
      simp only [dfs_visit] at hx
      rcases hgo (adjOf g v) _ x v (fun e he => he) hx with h1 | h2
      · exact hfin _ rfl h1
      · exact Or.inr h2

theorem dfsEdgesGo_closure_of (g : fossil_graph) (visit : Option (Nat → Bool))
    (fuel : Nat) (hac : AlwaysContinue visit)
    (hA : ∀ v s, v < g.node_count → s.visited v = false →
      unvisCount g.node_count s.visited ≤ fuel →
      ((dfs_visit g visit fuel v s).2.visited v = true ∧
       (∀ e ∈ adjOf g v,
         (dfs_visit g visit fuel v s).2.visited e.«to» = true) ∧
       (∀ u, (dfs_visit g visit fuel v s).2.visited u = true →
         s.visited u = true ∨
         ∀ e ∈ adjOf g u,
           (dfs_visit g visit fuel v s).2.visited e.«to» = true))) :
    ∀ (es : List fossil_graph_edge_node) (s : DfsState),
      (∀ e ∈ es, e.«to» < g.node_count) →
      unvisCount g.node_count s.visited ≤ fuel →
      ((∀ e ∈ es, (dfsEdgesGo g visit fuel es s).2.visited e.«to» = true) ∧
       (∀ u, (dfsEdgesGo g visit fuel es s).2.visited u = true →
         s.visited u = true ∨
         ∀ e ∈ adjOf g u,
           (dfsEdgesGo g visit fuel es s).2.visited e.«to» = true)) := by
  intro es
  induction es with
  | nil =>
    intro s _ _
    constructor
    · intro e he; cases he
    · intro u hu
      left
      simpa [dfsEdgesGo] using hu
  | cons e rest ih =>
    intro s hes hcount
    by_cases hvis : s.visited e.«to» = true
    · have hsub : ∀ e' ∈ rest, e'.«to» < g.node_count :=
        fun e' he' => hes e' (List.mem_cons_of_mem e he')
      obtain ⟨hcov, hclo⟩ := ih s hsub hcount
      constructor
      · intro e' he'
        rcases List.mem_cons.mp he' with rfl | hmem
        · simp only [dfsEdgesGo, hvis, if_true]
          exact dfsEdgesGo_mono g visit fuel rest s _ hvis
        · simp only [dfsEdgesGo, hvis, if_true]
          exact hcov e' hmem
      · intro u hu
        simp only [dfsEdgesGo, hvis, if_true] at hu ⊢
        exact hclo u hu
    · simp only [Bool.not_eq_true] at hvis
      rcases hres : dfs_visit g visit fuel e.«to» s with ⟨b, s_mid⟩
      have hb : b = true := by
        have := dfs_visit_true g visit hac fuel e.«to» s
        rw [hres] at this
        exact this
      subst hb
      have hAe := hA e.«to» s (hes e (List.mem_cons_self e rest)) hvis hcount
      rw [hres] at hAe
      obtain ⟨hmark, hexp, hcloA⟩ := hAe
      have hmono_mid : ∀ x, s.visited x = true → s_mid.visited x = true := by
        intro x hx
        have := dfs_visit_mono g visit fuel e.«to» s x hx
        rw [hres] at this
        exact this
      have hcount_mid : unvisCount g.node_count s_mid.visited ≤ fuel :=
        Nat.le_trans (unvisCount_mono _ _ _ hmono_mid) hcount
      have hsub : ∀ e' ∈ rest, e'.«to» < g.node_count :=
        fun e' he' => hes e' (List.mem_cons_of_mem e he')
      obtain ⟨hcov, hclo⟩ := ih s_mid hsub hcount_mid
      have hmono_fin : ∀ x, s_mid.visited x = true →
          (dfsEdgesGo g visit fuel rest s_mid).2.visited x = true :=
        fun x hx => dfsEdgesGo_mono g visit fuel rest s_mid x hx
      constructor
      · intro e' he'
        rcases List.mem_cons.mp he' with rfl | hmem
        · simp only [dfsEdgesGo, hvis, Bool.false_eq_true, if_false, hres]
          exact hmono_fin _ hmark
        · simp only [dfsEdgesGo, hvis, Bool.false_eq_true, if_false, hres]
          exact hcov e' hmem
      · intro u hu
        simp only [dfsEdgesGo, hvis, Bool.false_eq_true, if_false, hres]
          at hu ⊢
        rcases hclo u hu with h1 | h2
        · rcases hcloA u h1 with h3 | h4
          · exact Or.inl h3
          · exact Or.inr (fun e' he' => hmono_fin _ (h4 e' he'))
        · exact Or.inr h2

theorem dfs_visit_closure (g : fossil_graph) (visit : Option (Nat → Bool))
    (hrange : EdgesInRange g) (hac : AlwaysContinue visit) :
    ∀ (fuel : Nat) (v : Nat) (s : DfsState), v < g.node_count →
      s.visited v = false → unvisCount g.node_count s.visited ≤ fuel →
      ((dfs_visit g visit fuel v s).2.visited v = true ∧
       (∀ e ∈ adjOf g v,
         (dfs_visit g visit fuel v s).2.visited e.«to» = true) ∧
       (∀ u, (dfs_visit g visit fuel v s).2.visited u = true →
         s.visited u = true ∨
         ∀ e ∈ adjOf g u,
           (dfs_visit g visit fuel v s).2.visited e.«to» = true)) := by
  intro fuel
  induction fuel with
  | zero =>
    intro v s hv hvf hcount
    exact absurd (Nat.le_trans (unvisCount_pos g.node_count s.visited v hv hvf)
      hcount) (by omega)
  | succ fuel ih =>
    intro v s hv hvf hcount
    have hB := dfsEdgesGo_closure_of g visit fuel hac ih
    have hes : ∀ e ∈ adjOf g v, e.«to» < g.node_count := hrange v hv
    have key : ∀ tr : List Nat,
        let s2 : DfsState := { visited := fupd s.visited v true, trace := tr }
        ((dfsEdgesGo g visit fuel (adjOf g v) s2).2.visited v = true ∧
         (∀ e ∈ adjOf g v,
           (dfsEdgesGo g visit fuel (adjOf g v) s2).2.visited e.«to» = true) ∧
         (∀ u, (dfsEdgesGo g visit fuel (adjOf g v) s2).2.visited u = true →
           s.visited u = true ∨
           ∀ e ∈ adjOf g u,
             (dfsEdgesGo g visit fuel (adjOf g v) s2).2.visited e.«to» =
               true)) := by
      intro tr
      have hcount2 : unvisCount g.node_count
          (fupd s.visited v true) ≤ fuel := by
        have := unvisCount_fupd g.node_count s.visited v hv hvf
        omega
      obtain ⟨hcov, hclo⟩ := hB (adjOf g v)
        { visited := fupd s.visited v true, trace := tr } hes hcount2
      have hmarkv : (dfsEdgesGo g visit fuel (adjOf g v)
          { visited := fupd s.visited v true, trace := tr }).2.visited v =
          true :=
        dfsEdgesGo_mono g visit fuel _ _ v (by simp [fupd_apply])
      refine ⟨hmarkv, hcov, ?_⟩
      intro u hu
      rcases hclo u hu with h1 | h2
      · simp only [fupd_apply] at h1
        by_cases huv : u = v
        · subst huv
          exact Or.inr hcov
        · rw [if_neg huv] at h1
          exact Or.inl h1
      · exact Or.inr h2
    match visit with
    | some f =>
      have hf : f v = true := hac f rfl v
      simp only [dfs_visit, hf, if_true]
      exact key _
    | none =>
      simp only [dfs_visit]
      exact key _

theorem graph_dfs_visits_reachable (g : fossil_graph) (start : Nat)
    (visit : Option (Nat → Bool)) (hrange : EdgesInRange g)
    (hs : start < g.node_count) (hac : AlwaysContinue visit) :
    ∀ x, (graph_dfs (some g) start visit).visited x = true ↔
      Reachable g start x := by
  have hns : ¬ g.node_count ≤ start := Nat.not_le.mpr hs
  have hn : ¬ g.node_count = 0 := by omega
  obtain ⟨hmark, hexp, hclo⟩ := dfs_visit_closure g visit hrange hac
    g.node_count start { visited := fun _ => false, trace := [] } hs rfl
    (by rw [unvisCount_const_false])
  simp only [graph_dfs, hns, hn, if_false, ite_false]
  intro x
  constructor
  · intro hx
    rcases dfs_visit_sound g visit g.node_count start _ x hx with h1 | h2
    · simp at h1
    · exact h2
  · intro hr
    refine reach_subset_visited g start _ hmark ?_ x hr
    intro u hu e he
    rcases hclo u hu with h1 | h2
    · simp at h1
    · exact h2 e he

-- ======================================================
-- Claim C3
-- ======================================================

/-- Claim C3: with no visitor or an always-true visitor, BFS and DFS both
mark as visited exactly the set of nodes reachable from the start node via
directed adjacency edges (hence identical visited sets), and both return
status 0. -/
theorem bfs_dfs_same_reachable_set (g : fossil_graph) (start : Nat)
    (visit : Option (Nat → Bool)) (hrange : EdgesInRange g)
    (hs : start < g.node_count) (hac : AlwaysContinue visit) :
    (∀ x, (graph_bfs (some g) start visit).visited x = true ↔
      Reachable g start x) ∧
    (∀ x, (graph_dfs (some g) start visit).visited x = true ↔
      Reachable g start x) ∧
    (∀ x, (graph_bfs (some g) start visit).visited x =
      (graph_dfs (some g) start visit).visited x) ∧
    (graph_bfs (some g) start visit).status = 0 ∧
    (graph_dfs (some g) start visit).status = 0 := by
  have hb := graph_bfs_visits_reachable g start visit hrange hs hac
  have hd := graph_dfs_visits_reachable g start visit hrange hs hac
  refine ⟨hb, hd, ?_, graph_bfs_status g start visit (Nat.not_le.mpr hs),
    graph_dfs_status g start visit (Nat.not_le.mpr hs)⟩
  intro x
  by_cases hr : Reachable g start x
  · rw [(hb x).mpr hr, (hd x).mpr hr]
  · have h1 : (graph_bfs (some g) start visit).visited x ≠ true :=
      fun hc => hr ((hb x).mp hc)
    have h2 : (graph_dfs (some g) start visit).visited x ≠ true :=
      fun hc => hr ((hd x).mp hc)
    simp only [Bool.not_eq_true] at h1 h2
    rw [h1, h2]

/-- Claim C3 witness: BFS and DFS with no visitor on a concrete two-node
graph agree with reachability. -/
theorem bfs_dfs_same_reachable_set_witness :
    (graph_bfs (some gEdge) 0 none).status = 0 ∧
    (graph_dfs (some gEdge) 0 none).status = 0 ∧
    ∀ x, (graph_bfs (some gEdge) 0 none).visited x =
      (graph_dfs (some gEdge) 0 none).visited x :=
  ⟨(bfs_dfs_same_reachable_set gEdge 0 none (by decide) (by decide)
      (by simp [AlwaysContinue])).2.2.2.1,
   (bfs_dfs_same_reachable_set gEdge 0 none (by decide) (by decide)
      (by simp [AlwaysContinue])).2.2.2.2,
   (bfs_dfs_same_reachable_set gEdge 0 none (by decide) (by decide)
      (by simp [AlwaysContinue])).2.2.1⟩

-- ======================================================
-- Dijkstra selection-scan lemmas (claims C1, C2)
-- ======================================================

theorem distLt_none (b : Option ℚ) : distLt none b = false := by
  cases b <;> rfl

theorem selectScan_none (dist : Nat → Option ℚ) (used : Nat → Bool) :
    ∀ (l : List Nat) (acc : Option Nat), selectScan dist used l acc = none →
      acc = none ∧ ∀ j ∈ l, used j = true := by
  intro l
  induction l with
  | nil =>
    intro acc h
    exact ⟨h, by intro j hj; cases hj⟩
  | cons i rest ih =>
    intro acc h
    match acc with
    | none =>
      by_cases hu : used i = true
      · simp only [selectScan, hu, if_true] at h
        obtain ⟨_, hall⟩ := ih none h
        refine ⟨rfl, ?_⟩
        intro j hj
        rcases List.mem_cons.mp hj with rfl | hj
        · exact hu
        · exact hall j hj
      · simp only [Bool.not_eq_true] at hu
        simp only [selectScan, hu, Bool.false_eq_true, if_false] at h
        exact absurd (ih _ h).1 (by simp)
    | some w =>
      by_cases hcond : (!used i && distLt (dist i) (dist w)) = true
      · simp only [selectScan, hcond, if_true] at h
        exact absurd (ih _ h).1 (by simp)
      · simp only [Bool.not_eq_true] at hcond
        simp only [selectScan, hcond, Bool.false_eq_true, if_false] at h
        exact absurd (ih _ h).1 (by simp)

theorem selectScan_some_unused (dist : Nat → Option ℚ) (used : Nat → Bool) :
    ∀ (l : List Nat) (acc : Option Nat) (v : Nat),
      (∀ w, acc = some w → used w = false) →
      selectScan dist used l acc = some v →
      used v = false ∧ (acc = some v ∨ v ∈ l) := by
  intro l
  induction l with
  | nil =>
    intro acc v hacc h
    exact ⟨hacc v h, Or.inl h⟩
  | cons i rest ih =>
    intro acc v hacc h
    match acc with
    | none =>
      by_cases hu : used i = true
      · simp only [selectScan, hu, if_true] at h
        obtain ⟨h1, h2⟩ := ih none v (by intro w hw; cases hw) h
        rcases h2 with h2 | h2
        · cases h2
        · exact ⟨h1, Or.inr (List.mem_cons_of_mem i h2)⟩
      · simp only [Bool.not_eq_true] at hu
        simp only [selectScan, hu, Bool.false_eq_true, if_false] at h
        obtain ⟨h1, h2⟩ := ih (some i) v
          (by intro w hw; cases hw; exact hu) h
        rcases h2 with h2 | h2
        · cases h2; exact ⟨hu, Or.inr (List.mem_cons_self i rest)⟩
        · exact ⟨h1, Or.inr (List.mem_cons_of_mem i h2)⟩
    | some w =>
      have hw : used w = false := hacc w rfl
      by_cases hcond : (!used i && distLt (dist i) (dist w)) = true
      · simp only [selectScan, hcond, if_true] at h
        have hui : used i = false := by
          have hc := hcond
          simp only [Bool.and_eq_true, Bool.not_eq_true'] at hc
          exact hc.1
        obtain ⟨h1, h2⟩ := ih (some i) v
          (by intro w' hw'; cases hw'; exact hui) h
        rcases h2 with h2 | h2
        · cases h2; exact ⟨hui, Or.inr (List.mem_cons_self i rest)⟩
        · exact ⟨h1, Or.inr (List.mem_cons_of_mem i h2)⟩
      · simp only [Bool.not_eq_true] at hcond
        simp only [selectScan, hcond, Bool.false_eq_true, if_false] at h
        obtain ⟨h1, h2⟩ := ih (some w) v
          (by intro w' hw'; cases hw'; exact hw) h
        rcases h2 with h2 | h2
        · cases h2; exact ⟨hw, Or.inl rfl⟩
        · exact ⟨h1, Or.inr (List.mem_cons_of_mem i h2)⟩

theorem selectScan_min (dist : Nat → Option ℚ) (used : Nat → Bool) :
    ∀ (l : List Nat) (acc : Option Nat) (v : Nat),
      selectScan dist used l acc = some v →
      (∀ w, acc = some w → distLt (dist w) (dist v) = false) ∧
      (∀ j ∈ l, used j = false → distLt (dist j) (dist v) = false) := by
  intro l
  induction l with
  | nil =>
    intro acc v h
    constructor
    · intro w hw
      rw [hw] at h
      cases h
      rw [distLt_false_iff]
    · intro j hj; cases hj
  | cons i rest ih =>
    intro acc v h
    match acc with
    | none =>
      by_cases hu : used i = true
      · simp only [selectScan, hu, if_true] at h
        obtain ⟨hP1, hP2⟩ := ih none v h
        refine ⟨fun w hw => (nomatch hw), ?_⟩
        intro j hj huj
        rcases List.mem_cons.mp hj with rfl | hj
        · rw [huj] at hu; cases hu
        · exact hP2 j hj huj
      · simp only [Bool.not_eq_true] at hu
        simp only [selectScan, hu, Bool.false_eq_true, if_false] at h
        obtain ⟨hP1, hP2⟩ := ih (some i) v h
        refine ⟨fun w hw => (nomatch hw), ?_⟩
        intro j hj huj
        rcases List.mem_cons.mp hj with rfl | hj
        · exact hP1 j rfl
        · exact hP2 j hj huj
    | some w =>
      by_cases hcond : (!used i && distLt (dist i) (dist w)) = true
      · simp only [selectScan, hcond, if_true] at h
        obtain ⟨hP1, hP2⟩ := ih (some i) v h
        have hiv : distLt (dist i) (dist v) = false := hP1 i rfl
        have hiw : toW (dist i) < toW (dist w) := by
          have hc := hcond
          simp only [Bool.and_eq_true, Bool.not_eq_true'] at hc
          exact (distLt_iff _ _).mp hc.2
        have hwv : distLt (dist w) (dist v) = false := by
          rw [distLt_false_iff]
          rw [distLt_false_iff] at hiv
          exact le_trans hiv (le_of_lt hiw)
        refine ⟨?_, ?_⟩
        · intro w' hw'; cases hw'; exact hwv
        · intro j hj huj
          rcases List.mem_cons.mp hj with rfl | hj
          · exact hiv
          · exact hP2 j hj huj
      · simp only [Bool.not_eq_true] at hcond
        simp only [selectScan, hcond, Bool.false_eq_true, if_false] at h
        obtain ⟨hP1, hP2⟩ := ih (some w) v h
        refine ⟨?_, ?_⟩
        · intro w' hw'; cases hw'; exact hP1 w rfl
        · intro j hj huj
          rcases List.mem_cons.mp hj with rfl | hj
          · have hjw : distLt (dist j) (dist w) = false := by
              simpa [huj] using hcond
            rw [distLt_false_iff] at hjw
            have h1 := hP1 w rfl
            rw [distLt_false_iff] at h1
            rw [distLt_false_iff]
            exact le_trans h1 hjw
          · exact hP2 j hj huj

theorem selectMin_none (dist : Nat → Option ℚ) (used : Nat → Bool) (n : Nat)
    (h : selectMin dist used n = none) : ∀ j, j < n → used j = true := by
  intro j hj
  exact (selectScan_none dist used (List.range n) none h).2 j
    (List.mem_range.mpr hj)

theorem selectMin_some (dist : Nat → Option ℚ) (used : Nat → Bool) (n v : Nat)
    (h : selectMin dist used n = some v) : used v = false ∧ v < n := by
  obtain ⟨h1, h2⟩ := selectScan_some_unused dist used (List.range n) none v
    (by intro w hw; cases hw) h
  rcases h2 with h2 | h2
  · cases h2
  · exact ⟨h1, List.mem_range.mp h2⟩

theorem selectMin_min (dist : Nat → Option ℚ) (used : Nat → Bool) (n v : Nat)
    (h : selectMin dist used n = some v) :
    ∀ j, j < n → used j = false → distLt (dist j) (dist v) = false := by
  intro j hj huj
  exact (selectScan_min dist used (List.range n) none v h).2 j
    (List.mem_range.mpr hj) huj

-- ======================================================
-- Dijkstra relaxation lemmas (claims C1, C2)
-- ======================================================

theorem relaxEdges_le (v : Nat) :
    ∀ (es : List fossil_graph_edge_node) (d : Nat → Option ℚ) (x : Nat),
      toW ((relaxEdges v es d) x) ≤ toW (d x) := by
  intro es
  induction es with
  | nil => intro d x; exact le_refl _
  | cons e rest ih =>
    intro d x
    by_cases hrel : distLt (optAdd (d v) e.weight) (d e.«to») = true
    · simp only [relaxEdges, hrel, if_true]
      refine le_trans (ih _ x) ?_
      rw [fupd_apply]
      by_cases hx : x = e.«to»
      · rw [if_pos hx]
        rw [hx]
        exact le_of_lt ((distLt_iff _ _).mp hrel)
      · rw [if_neg hx]
    · simp only [Bool.not_eq_true] at hrel
      simp only [relaxEdges, hrel, Bool.false_eq_true, if_false]
      exact ih d x

theorem relaxEdges_ne_none (v : Nat) :
    ∀ (es : List fossil_graph_edge_node) (d : Nat → Option ℚ) (x : Nat),
      d x ≠ none → (relaxEdges v es d) x ≠ none := by
  intro es
  induction es with
  | nil => intro d x hx; exact hx
  | cons e rest ih =>
    intro d x hx
    by_cases hrel : distLt (optAdd (d v) e.weight) (d e.«to») = true
    · simp only [relaxEdges, hrel, if_true]
      refine ih _ x ?_
      rw [fupd_apply]
      by_cases hxe : x = e.«to»
      · rw [if_pos hxe]
        intro hc
        rw [hc] at hrel
        rw [distLt_none] at hrel
        cases hrel
      · rw [if_neg hxe]; exact hx
    · simp only [Bool.not_eq_true] at hrel
      simp only [relaxEdges, hrel, Bool.false_eq_true, if_false]
      exact ih d x hx

theorem relaxEdges_untouched (v : Nat) :
    ∀ (es : List fossil_graph_edge_node) (d : Nat → Option ℚ) (x : Nat),
      (∀ e ∈ es, e.«to» ≠ x) → (relaxEdges v es d) x = d x := by
  intro es
  induction es with
  | nil => intro d x _; rfl
  | cons e rest ih =>
    intro d x hne
    by_cases hrel : distLt (optAdd (d v) e.weight) (d e.«to») = true
    · simp only [relaxEdges, hrel, if_true]
      rw [ih _ x (fun e' he' => hne e' (List.mem_cons_of_mem e he'))]
      rw [fupd_apply, if_neg]
      intro hc
      exact hne e (List.mem_cons_self e rest) hc.symm
    · simp only [Bool.not_eq_true] at hrel
      simp only [relaxEdges, hrel, Bool.false_eq_true, if_false]
      exact ih d x (fun e' he' => hne e' (List.mem_cons_of_mem e he'))

theorem relaxEdges_reach (g : fossil_graph) (start v : Nat) :
    ∀ (es : List fossil_graph_edge_node) (d : Nat → Option ℚ),
      (∀ y, d y ≠ none → Reachable g start y) →
      (∀ e ∈ es, e ∈ adjOf g v) →
      ∀ x, (relaxEdges v es d) x ≠ none → Reachable g start x := by
  intro es
  induction es with
  | nil => intro d hd _ x hx; exact hd x hx
  | cons e rest ih =>
    intro d hd hsub x hx
    by_cases hrel : distLt (optAdd (d v) e.weight) (d e.«to») = true
    · simp only [relaxEdges, hrel, if_true] at hx
      refine ih _ ?_ (fun e' he' => hsub e' (List.mem_cons_of_mem e he')) x hx
      intro y hy
      rw [fupd_apply] at hy
      by_cases hye : y = e.«to»
      · rw [if_pos hye] at hy
        have hdv : d v ≠ none := by
          intro hc
          rw [hc] at hrel
          simp only [optAdd, distLt_none] at hrel
          cases hrel
        have hrv : Reachable g start v := hd v hdv
        rw [hye]
        exact hrv.trans_step e (hsub e (List.mem_cons_self e rest)) rfl
      · rw [if_neg hye] at hy
        exact hd y hy
    · simp only [Bool.not_eq_true] at hrel
      simp only [relaxEdges, hrel, Bool.false_eq_true, if_false] at hx
      exact ih d hd (fun e' he' => hsub e' (List.mem_cons_of_mem e he')) x hx

theorem relaxEdges_covers (v : Nat) :
    ∀ (es : List fossil_graph_edge_node) (d : Nat → Option ℚ),
      d v ≠ none → ∀ e ∈ es, (relaxEdges v es d) e.«to» ≠ none := by
  intro es
  induction es with
  | nil => intro d _ e he; cases he
  | cons e rest ih =>
    intro d hdv e' he'
    obtain ⟨dv, hdv'⟩ := Option.ne_none_iff_exists'.mp hdv
    by_cases hrel : distLt (optAdd (d v) e.weight) (d e.«to») = true
    · have hd1v : fupd d e.«to» (optAdd (d v) e.weight) v ≠ none := by
        rw [fupd_apply]
        by_cases hv : v = e.«to»
        · rw [if_pos hv, hdv', optAdd]
          simp
        · rw [if_neg hv]; exact hdv
      rcases List.mem_cons.mp he' with rfl | hmem
      · simp only [relaxEdges, hrel, if_true]
        refine relaxEdges_ne_none v rest _ _ ?_
        rw [fupd_apply, if_pos rfl, hdv', optAdd]
        simp
      · simp only [relaxEdges, hrel, if_true]
        exact ih _ hd1v e' hmem
    · simp only [Bool.not_eq_true] at hrel
      rcases List.mem_cons.mp he' with rfl | hmem
      · simp only [relaxEdges, hrel, Bool.false_eq_true, if_false]
        refine relaxEdges_ne_none v rest _ _ ?_
        rw [distLt_false_iff] at hrel
        intro hc
        rw [hc] at hrel
        rw [hdv'] at hrel
        simp only [toW, optAdd] at hrel
        exact absurd (top_le_iff.mp hrel) (WithTop.coe_ne_top)
      · simp only [relaxEdges, hrel, Bool.false_eq_true, if_false]
        exact ih d hdv e' hmem

theorem relaxEdges_bound (v : Nat) :
    ∀ (es : List fossil_graph_edge_node) (d : Nat → Option ℚ),
      (∀ e ∈ es, 0 ≤ e.weight) →
      (relaxEdges v es d) v = d v ∧
      ∀ x, min (toW (d x)) (toW (d v)) ≤ toW ((relaxEdges v es d) x) := by
  intro es
  induction es with
  | nil =>
    intro d _
    exact ⟨rfl, fun x => min_le_left _ _⟩
  | cons e rest ih =>
    intro d hw
    have h0 : (0 : WithTop ℚ) ≤ (e.weight : WithTop ℚ) := by
      exact_mod_cast hw e (List.mem_cons_self e rest)
    have hge : toW (d v) ≤ toW (optAdd (d v) e.weight) := by
      rw [toW_optAdd]
      exact le_add_of_nonneg_right h0
    by_cases hrel : distLt (optAdd (d v) e.weight) (d e.«to») = true
    · have hlt : toW (optAdd (d v) e.weight) < toW (d e.«to») :=
        (distLt_iff _ _).mp hrel
      have hne : e.«to» ≠ v := by
        intro hc
        rw [hc] at hlt
        exact absurd hlt (not_lt.mpr hge)
      have hd1v : fupd d e.«to» (optAdd (d v) e.weight) v = d v := by
        rw [fupd_apply, if_neg (fun hc => hne hc.symm)]
      obtain ⟨ihv, ihb⟩ := ih (fupd d e.«to» (optAdd (d v) e.weight))
        (fun e' he' => hw e' (List.mem_cons_of_mem e he'))
      constructor
      · simp only [relaxEdges, hrel, if_true]
        rw [ihv, hd1v]
      · intro x
        simp only [relaxEdges, hrel, if_true]
        refine le_trans ?_ (ihb x)
        rw [hd1v]
        refine le_min ?_ (min_le_right _ _)
        rw [fupd_apply]
        by_cases hxe : x = e.«to»
        · rw [if_pos hxe]
          exact le_trans (min_le_right _ _) hge
        · rw [if_neg hxe]
          exact min_le_left _ _
    · simp only [Bool.not_eq_true] at hrel
      simp only [relaxEdges, hrel, Bool.false_eq_true, if_false]
      exact ih d (fun e' he' => hw e' (List.mem_cons_of_mem e he'))

-- ======================================================
-- Dijkstra loop lemmas and claim C1
-- ======================================================

theorem dijkstraStep_break (g : fossil_graph) (s : DijkstraState)
    (h : dijkstraStep g s = none) :
    ∀ j, j < g.node_count → s.used j = false → s.dist j = none := by
  intro j hj huj
  unfold dijkstraStep at h
  split at h
  · rename_i hsel
    exact absurd (selectMin_none _ _ _ hsel j hj) (by rw [huj]; simp)
  · rename_i v hsel
    split at h
    · rename_i hd
      have hmin := selectMin_min _ _ _ v hsel j hj huj
      rw [distLt_false_iff, hd] at hmin
      simp only [toW] at hmin
      exact (toW_eq_top_iff _).mp (top_le_iff.mp hmin)
    · rename_i dv hd
      cases h

theorem dijkstraStep_inv (g : fossil_graph) (start : Nat)
    (hrange : EdgesInRange g) (s s' : DijkstraState)
    (hstep : dijkstraStep g s = some s') (hinv : DijkstraInv g start s) :
    DijkstraInv g start s' := by
  unfold dijkstraStep at hstep
  split at hstep
  · cases hstep
  · rename_i v hsel
    split at hstep
    · cases hstep
    · rename_i dv hd
      have hdvne : s.dist v ≠ none := by rw [hd]; simp
      injection hstep with hstep
      rw [← hstep]
      refine ⟨?_, ?_, ?_, ?_⟩
      · exact relaxEdges_reach g start v (adjOf g v) s.dist hinv.reach
          (fun e he => he)
      · intro u hu
        simp only [fupd_apply] at hu
        by_cases huv : u = v
        · rw [huv]
          exact relaxEdges_ne_none v _ _ v hdvne
        · rw [if_neg huv] at hu
          exact relaxEdges_ne_none v _ _ u (hinv.used_fin u hu)
      · intro u hu e he
        simp only [fupd_apply] at hu
        by_cases huv : u = v
        · rw [huv] at he
          exact relaxEdges_covers v (adjOf g v) s.dist hdvne e he
        · rw [if_neg huv] at hu
          exact relaxEdges_ne_none v _ _ _ (hinv.closure u hu e he)
      · exact relaxEdges_ne_none v _ _ start hinv.start_fin

theorem dijkstraLoop_inv (g : fossil_graph) (start : Nat)
    (hrange : EdgesInRange g) :
    ∀ (fuel : Nat) (s : DijkstraState), DijkstraInv g start s →
      DijkstraInv g start (dijkstraLoop g fuel s) := by
  intro fuel
  induction fuel with
  | zero => intro s hinv; exact hinv
  | succ fuel ih =>
    intro s hinv
    rw [dijkstraLoop]
    match hstep : dijkstraStep g s with
    | none => exact hinv
    | some s' => exact ih s' (dijkstraStep_inv g start hrange s s' hstep hinv)

theorem dijkstraStep_used_new (g : fossil_graph) (s s' : DijkstraState)
    (hstep : dijkstraStep g s = some s') :
    ∃ v, v < g.node_count ∧ s.used v = false ∧
      s'.used = fupd s.used v true ∧
      s'.dist = relaxEdges v (adjOf g v) s.dist ∧ s.dist v ≠ none ∧
      ∀ j, j < g.node_count → s.used j = false →
        distLt (s.dist j) (s.dist v) = false := by
  unfold dijkstraStep at hstep
  split at hstep
  · cases hstep
  · rename_i v hsel
    split at hstep
    · cases hstep
    · rename_i dv hd
      injection hstep with hstep
      obtain ⟨hu, hv⟩ := selectMin_some _ _ _ v hsel
      exact ⟨v, hv, hu, by rw [← hstep], by rw [← hstep], by rw [hd]; simp,
        selectMin_min _ _ _ v hsel⟩

theorem dijkstraLoop_fix (g : fossil_graph) :
    ∀ (fuel : Nat) (s : DijkstraState),
      unvisCount g.node_count s.used < fuel →
      dijkstraStep g (dijkstraLoop g fuel s) = none := by
  intro fuel
  induction fuel with
  | zero => intro s h; exact absurd h (by omega)
  | succ fuel ih =>
    intro s h
    rw [dijkstraLoop]
    match hstep : dijkstraStep g s with
    | none => exact hstep
    | some s' =>
      obtain ⟨v, hv, hu, hused, _, _, _⟩ := dijkstraStep_used_new g s s' hstep
      have hdec : unvisCount g.node_count s'.used + 1 =
          unvisCount g.node_count s.used := by
        rw [hused]
        exact unvisCount_fupd g.node_count s.used v hv hu
      exact ih s' (by omega)

theorem dijkstraInit_inv (g : fossil_graph) (start : Nat)
    (hs : start < g.node_count) :
    DijkstraInv g start (dijkstraInit start) := by
  refine ⟨?_, ?_, ?_, ?_⟩
  · intro v hv
    simp only [dijkstraInit, fupd_apply] at hv
    by_cases hvs : v = start
    · rw [hvs]; exact Relation.ReflTransGen.refl
    · rw [if_neg hvs] at hv; exact absurd rfl hv
  · intro v hv; cases hv
  · intro u hu; cases hu
  · simp [dijkstraInit, fupd_apply]

theorem graph_dijkstra_reach (g : fossil_graph) (start target : Nat)
    (hrange : EdgesInRange g) (hw : g.weighted = true)
    (hs : start < g.node_count) (ht : target < g.node_count) :
    (graph_dijkstra (some g) start target = 0 ↔ Reachable g start target) ∧
    (graph_dijkstra (some g) start target = -1 ↔
      ¬ Reachable g start target) := by
  have hinv : DijkstraInv g start
      (dijkstraLoop g (g.node_count + 1) (dijkstraInit start)) :=
    dijkstraLoop_inv g start hrange _ _ (dijkstraInit_inv g start hs)
  have hfix : dijkstraStep g
      (dijkstraLoop g (g.node_count + 1) (dijkstraInit start)) = none := by
    refine dijkstraLoop_fix g _ _ ?_
    have : unvisCount g.node_count (dijkstraInit start).used = g.node_count :=
      unvisCount_const_false g.node_count
    omega
  have hbreak := dijkstraStep_break g _ hfix
  have hiff : (dijkstraLoop g (g.node_count + 1)
      (dijkstraInit start)).dist target ≠ none ↔
      Reachable g start target := by
    constructor
    · exact hinv.reach target
    · intro hr
      have aux : ∀ t, Reachable g start t → t < g.node_count ∧
          (dijkstraLoop g (g.node_count + 1)
            (dijkstraInit start)).dist t ≠ none := by
        intro t hrt
        induction hrt with
        | refl => exact ⟨hs, hinv.start_fin⟩
        | tail hab hbc ihab =>
          rename_i b c
          obtain ⟨e, he, hto⟩ := hbc
          obtain ⟨hbn, hbfin⟩ := ihab
          have hcn := hrange _ hbn e he
          have hused : (dijkstraLoop g (g.node_count + 1)
              (dijkstraInit start)).used b = true := by
            by_contra hc
            simp only [Bool.not_eq_true] at hc
            exact hbfin (hbreak _ hbn hc)
          rw [← hto]
          exact ⟨hcn, hinv.closure _ hused e he⟩
      exact (aux target hr).2
  have hns : ¬ (g.node_count ≤ start ∨ g.node_count ≤ target) := by omega
  have hn0 : ¬ g.node_count = 0 := by omega
  simp only [graph_dijkstra, hw, Bool.not_true, Bool.false_eq_true, if_false,
    hns, hn0, ite_false]
  cases hd : (dijkstraLoop g (g.node_count + 1)
      (dijkstraInit start)).dist target with
  | none =>
    have hnr : ¬ Reachable g start target := fun hr =>
      (hd ▸ hiff.mpr hr) rfl
    constructor
    · constructor
      · intro hc; exact absurd hc (by decide)
      · intro hc; exact absurd hc hnr
    · constructor
      · intro _; exact hnr
      · intro _; rfl
  | some q =>
    have hr : Reachable g start target := hiff.mp (by rw [hd]; simp)
    show ((0 : Int) = 0 ↔ _) ∧ ((0 : Int) = -1 ↔ _)
    constructor
    · constructor
      · intro _; exact hr
      · intro _; rfl
    · constructor
      · intro hc; exact absurd hc (by decide)
      · intro hc; exact absurd hr hc

/-- Claim C1: on a weighted graph with non-negative weights and in-range edge
destinations, exec with "dijkstra" and in-range start and target returns 0
iff the target is reachable from the start, and -1 iff it is not. -/
theorem exec_dijkstra_reachability (g : fossil_graph) (start target : Nat)
    (visit : Option (Nat → Bool)) (hrange : EdgesInRange g)
    (hnn : NonnegWeights g) (hw : g.weighted = true)
    (hs : start < g.node_count) (ht : target < g.node_count) :
    ((fossil_algorithm_graph_exec (some g) (some sDijkstra) start target
        visit).status = 0 ↔ Reachable g start target) ∧
    ((fossil_algorithm_graph_exec (some g) (some sDijkstra) start target
        visit).status = -1 ↔ ¬ Reachable g start target) := by
  rw [exec_dispatch_dijkstra g start target visit hw hs ht]
  exact graph_dijkstra_reach g start target hrange hw hs ht

/-- Claim C1 witness: on the concrete two-node graph with the single edge
0 → 1, exec with "dijkstra" relates status to reachability. -/
theorem exec_dijkstra_reachability_witness :
    EdgesInRange gEdge ∧ NonnegWeights gEdge ∧
    ((fossil_algorithm_graph_exec (some gEdge) (some sDijkstra) 0 1
        none).status = 0 ↔ Reachable gEdge 0 1) :=
  ⟨by decide, by decide,
    (exec_dijkstra_reachability gEdge 0 1 none (by decide) (by decide) rfl
      (by decide) (by decide)).1⟩

-- ======================================================
-- Finalized-distance stability (claim C2)
-- ======================================================

theorem dijkstraStep_ord (g : fossil_graph) (s s' : DijkstraState)
    (hrange : EdgesInRange g) (hnn : NonnegWeights g)
    (hOrd : DijkstraOrd g s) (hstep : dijkstraStep g s = some s') :
    DijkstraOrd g s' ∧
    ∀ u, s.used u = true → s'.used u = true ∧ s'.dist u = s.dist u := by
  obtain ⟨v, hv, hu, hused', hdist', hdvne, hmin⟩ :=
    dijkstraStep_used_new g s s' hstep
  obtain ⟨hkeepv, hbound⟩ := relaxEdges_bound v (adjOf g v) s.dist (hnn v hv)
  have hstab : ∀ u, s.used u = true → s'.dist u = s.dist u := by
    intro u hu'
    have hle : toW (s.dist u) ≤ toW (s.dist v) := hOrd.ord u v hu' hu
    have h1 : toW (s'.dist u) ≤ toW (s.dist u) := by
      rw [hdist']; exact relaxEdges_le v _ _ u
    have h2 : min (toW (s.dist u)) (toW (s.dist v)) ≤ toW (s'.dist u) := by
      rw [hdist']; exact hbound u
    rw [min_eq_left hle] at h2
    exact toW_injective (le_antisymm h1 h2)
  have husedkeep : ∀ u, s.used u = true → s'.used u = true := by
    intro u hu'
    rw [hused', fupd_apply]
    by_cases huv : u = v
    · rw [if_pos huv]
    · rw [if_neg huv]; exact hu'
  have hvle : ∀ x, s.used x = false → toW (s.dist v) ≤ toW (s.dist x) := by
    intro x hxu
    by_cases hxn : x < g.node_count
    · have := hmin x hxn hxu
      rw [distLt_false_iff] at this
      exact this
    · have hhigh := (hOrd.high x (by omega)).1
      rw [hhigh]
      simp [toW]
  refine ⟨⟨?_, ?_⟩, fun u hu' => ⟨husedkeep u hu', hstab u hu'⟩⟩
  · intro u x hu' hx'
    have hxv : x ≠ v := by
      intro hc
      rw [hused', hc] at hx'
      simp [fupd_apply] at hx'
    have hxu : s.used x = false := by
      rw [hused'] at hx'
      simpa [fupd_apply, hxv] using hx'
    have hbx : min (toW (s.dist x)) (toW (s.dist v)) ≤ toW (s'.dist x) := by
      rw [hdist']; exact hbound x
    by_cases huv : u = v
    · have hdu : s'.dist u = s.dist v := by
        rw [huv, hdist']; exact hkeepv
      rw [hdu]
      exact le_trans (le_min (hvle x hxu) (le_refl _)) hbx
    · have hus : s.used u = true := by
        rw [hused'] at hu'
        simpa [fupd_apply, huv] using hu'
      rw [hstab u hus]
      exact le_trans (le_min (hOrd.ord u x hus hxu) (hOrd.ord u v hus hu)) hbx
  · intro x hx
    obtain ⟨hd0, hu0⟩ := hOrd.high x hx
    have hne : ∀ e ∈ adjOf g v, e.«to» ≠ x := by
      intro e he hc
      have := hrange v hv e he
      omega
    constructor
    · rw [hdist', relaxEdges_untouched v _ _ x hne]
      exact hd0
    · rw [hused', fupd_apply, if_neg (by intro hc; omega)]
      exact hu0

theorem dijkstraLoop_ord (g : fossil_graph) (hrange : EdgesInRange g)
    (hnn : NonnegWeights g) :
    ∀ (fuel : Nat) (s : DijkstraState), DijkstraOrd g s →
      DijkstraOrd g (dijkstraLoop g fuel s) ∧
      ∀ u, s.used u = true → (dijkstraLoop g fuel s).used u = true ∧
        (dijkstraLoop g fuel s).dist u = s.dist u := by
  intro fuel
  induction fuel with
  | zero => intro s hOrd; exact ⟨hOrd, fun u hu => ⟨hu, rfl⟩⟩
  | succ fuel ih =>
    intro s hOrd
    rw [dijkstraLoop]
    cases hstep : dijkstraStep g s with
    | none => exact ⟨hOrd, fun u hu => ⟨hu, rfl⟩⟩
    | some s' =>
      obtain ⟨hOrd', hstab⟩ := dijkstraStep_ord g s s' hrange hnn hOrd hstep
      obtain ⟨hOrdF, hstabF⟩ := ih s' hOrd'
      refine ⟨hOrdF, ?_⟩
      intro u hu
      obtain ⟨hu', hd'⟩ := hstab u hu
      obtain ⟨huF, hdF⟩ := hstabF u hu'
      exact ⟨huF, by rw [hdF, hd']⟩

theorem dijkstraLoop_fixed (g : fossil_graph) (s : DijkstraState)
    (h : dijkstraStep g s = none) : ∀ b, dijkstraLoop g b s = s := by
  intro b
  cases b with
  | zero => rfl
  | succ b => rw [dijkstraLoop, h]

theorem dijkstraLoop_add (g : fossil_graph) :
    ∀ (a b : Nat) (s : DijkstraState),
      dijkstraLoop g (a + b) s = dijkstraLoop g b (dijkstraLoop g a s) := by
  intro a
  induction a with
  | zero =>
    intro b s
    rw [Nat.zero_add]
    rfl
  | succ a ih =>
    intro b s
    rw [Nat.succ_add]
    cases hstep : dijkstraStep g s with
    | none => simp [dijkstraLoop_fixed g s hstep]
    | some s' =>
      have l1 : dijkstraLoop g (a + b + 1) s = dijkstraLoop g (a + b) s' := by
        rw [dijkstraLoop, hstep]
      have l2 : dijkstraLoop g (a + 1) s = dijkstraLoop g a s' := by
        rw [dijkstraLoop, hstep]
      rw [l1, l2, ih]

theorem dijkstraInit_ord (g : fossil_graph) (start : Nat)
    (hs : start < g.node_count) : DijkstraOrd g (dijkstraInit start) := by
  constructor
  · intro u x hu _
    cases hu
  · intro x hx
    refine ⟨?_, rfl⟩
    simp only [dijkstraInit, fupd_apply]
    rw [if_neg (by intro hc; omega)]

/-- Claim C2 counterexample: on the graph with edges 0 → 1 (weight 5) and
1 → 0 (weight −10), the first loop iteration finalizes node 0 with distance
0, and the second iteration's relaxation (whose destination is the finalized
node 0) overwrites that distance with −5 — so relaxation is not restricted
to unfinalized neighbors, and a finalized node's tentative distance is
modified by a later relaxation step. -/
theorem dijkstra_relaxes_finalized_counterexample :
    (dijkstraLoop gNeg 1 (dijkstraInit 0)).used 0 = true ∧
    (dijkstraLoop gNeg 1 (dijkstraInit 0)).dist 0 = some 0 ∧
    (dijkstraLoop gNeg 2 (dijkstraInit 0)).dist 0 = some (-5) := by
  have h2 : (2 : Nat) = 1 + 1 := rfl
  have h1 : (1 : Nat) = 0 + 1 := rfl
  rw [h2, h1]
  norm_num [dijkstraLoop, dijkstraStep, selectMin, selectScan, relaxEdges,
    dijkstraInit, fupd, distLt, optAdd, adjOf, gNeg]

/-- Claim C2, amended: the relaxation loop applies the comparison to every
outgoing edge of the selected node, including edges into finalized nodes;
but on graphs with non-negative edge weights (and in-range edge
destinations), once a node is finalized its tentative distance value is
never modified by any later relaxation step, and it stays finalized. -/
theorem dijkstra_finalized_dist_stable (g : fossil_graph) (start : Nat)
    (hrange : EdgesInRange g) (hnn : NonnegWeights g)
    (hs : start < g.node_count) :
    ∀ (j k u : Nat), j ≤ k →
      (dijkstraLoop g j (dijkstraInit start)).used u = true →
      (dijkstraLoop g k (dijkstraInit start)).dist u =
        (dijkstraLoop g j (dijkstraInit start)).dist u ∧
      (dijkstraLoop g k (dijkstraInit start)).used u = true := by
  intro j k u hjk hu
  obtain ⟨hOrdj, _⟩ := dijkstraLoop_ord g hrange hnn j (dijkstraInit start)
    (dijkstraInit_ord g start hs)
  have hcomp : dijkstraLoop g k (dijkstraInit start) =
      dijkstraLoop g (k - j) (dijkstraLoop g j (dijkstraInit start)) := by
    rw [← dijkstraLoop_add]
    congr 1
    omega
  obtain ⟨hOrdF, hstabF⟩ := dijkstraLoop_ord g hrange hnn (k - j)
    (dijkstraLoop g j (dijkstraInit start)) hOrdj
  obtain ⟨huF, hdF⟩ := hstabF u hu
  rw [hcomp]
  exact ⟨hdF, huF⟩

/-- Claim C2 witness: the amended stability statement on a concrete
non-negative-weight graph — node 0 is finalized after one iteration and its
distance is unchanged by the next. -/
theorem dijkstra_finalized_dist_stable_witness :
    (dijkstraLoop gEdge 1 (dijkstraInit 0)).used 0 = true ∧
    (dijkstraLoop gEdge 2 (dijkstraInit 0)).dist 0 =
      (dijkstraLoop gEdge 1 (dijkstraInit 0)).dist 0 := by
  have hu : (dijkstraLoop gEdge 1 (dijkstraInit 0)).used 0 = true := by
    have h1 : (1 : Nat) = 0 + 1 := rfl
    rw [h1]
    norm_num [dijkstraLoop, dijkstraStep, selectMin, selectScan, relaxEdges,
      dijkstraInit, fupd, distLt, optAdd, adjOf, gEdge]
  exact ⟨hu, (dijkstra_finalized_dist_stable gEdge 0 (by decide) (by decide)
    (by decide) 1 2 0 (by decide) hu).1⟩
